import Mathlib

/-!
Verification of the svelte2tsx SvelteKit helper (`sveltekit.ts`) and the
component transpiler against its natural-language specification.

The development shallowly embeds the source file's data model and
operations:

* the insertion ledger (`AddedCode`, `insertCode`, `toVirtualPos`,
  `toOriginalPos`, and the text-assembly loop of `upsertKitFile`);
* the file-kind augmentor (`isKitFile` and friends, `upsertKitFile` and
  the four `upserKit*File` strategies, `addTypeToVariable`,
  `addTypeToFunction`);
* the transpiler's export rewriting (`replaceExports`), implicit
  reactive-variable declaration (`declareImplictReactiveVariables`) and
  props-object synthesis (`processScriptTag`'s return statement).

JavaScript numbers used as text offsets are modelled as `Nat` (all
offsets in the source are non-negative); the one place where a JS
subtraction can go below zero (`toOriginalPos`'s `pos - total`) is
modelled in `Int`.  JS strings are modelled as Lean `String`s (the
sources under verification only ever deal with code points, never with
surrogate pairs, so `String.length`/`slice` agree with the JS
semantics on the inputs of interest).
-/

namespace SvelteKit

/-- Embeds the `AddedCode` interface of `sveltekit.ts`: one recorded
insertion of `inserted` at original offset `originalPos`, mapped to
`generatedPos` in the generated text; `length` is the length of
`inserted` and `total` the cumulative inserted length up to and
including this record. -/
structure AddedCode where
  generatedPos : Nat
  originalPos : Nat
  length : Nat
  total : Nat
  inserted : String
deriving DecidableEq, Repr

/-- The suffix update performed by `insertCode`'s `for` loop on every
record at or after the insertion index: `generatedPos` and `total` are
both increased by the length of the newly inserted text. -/
def bump (len : Nat) (c : AddedCode) : AddedCode :=
  { c with generatedPos := c.generatedPos + len, total := c.total + len }

/-- The record object literal built by `insertCode` (both branches):
`generatedPos = pos + prevTotal`, `total = prevTotal + inserted.length`. -/
def newRec (pos : Nat) (inserted : String) (prevTotal : Nat) : AddedCode :=
  { generatedPos := pos + prevTotal
    originalPos := pos
    length := inserted.length
    total := prevTotal + inserted.length
    inserted := inserted }

/-- Models `addedCode[i - 1]?.total ?? 0` where `i - 1` indexes the last
element of the prefix `l` (and `-1`, i.e. an empty prefix, yields `0`). -/
def prevTotalOf (l : List AddedCode) : Nat :=
  match l.getLast? with
  | some c => c.total
  | none => 0

/-- Embeds `insertCode` of `sveltekit.ts`: finds the first record whose
`originalPos` exceeds `pos` (`findIndex`); if found, bumps every record
from that index on by the inserted length and splices the new record in
before them; otherwise appends the new record at the end.  The
`prevTotal` reads are `addedCode[insertionIdx - 1]?.total ?? 0` and
`addedCode[addedCode.length - 1]?.total ?? 0` respectively. -/
def insertCode (addedCode : List AddedCode) (pos : Nat) (inserted : String) :
    List AddedCode :=
  match addedCode.findIdx? (fun c => pos < c.originalPos) with
  | some insertionIdx =>
      addedCode.take insertionIdx
        ++ newRec pos inserted (prevTotalOf (addedCode.take insertionIdx))
          :: (addedCode.drop insertionIdx).map (bump inserted.length)
  | none =>
      addedCode ++ [newRec pos inserted (prevTotalOf addedCode)]

/-- Recursive equivalent of `insertCode` used for the inductive proofs:
`t` threads the `total` of the record immediately preceding the not yet
examined suffix (`0` at the top level). -/
def insertAux (pos : Nat) (inserted : String) (t : Nat) :
    List AddedCode → List AddedCode
  | [] => [newRec pos inserted t]
  | c :: rest =>
      if pos < c.originalPos then
        newRec pos inserted t :: (c :: rest).map (bump inserted.length)
      else
        c :: insertAux pos inserted c.total rest

/-- `lastTotal t l` is `t` when `l` is empty and the `total` of the last
record of `l` otherwise. -/
def lastTotal (t : Nat) : List AddedCode → Nat
  | [] => t
  | c :: rest => lastTotal c.total rest

/-- The structural well-formedness of a ledger suffix relative to the
cumulative inserted length `t` of everything before it: each record's
`total` is `t` plus its own `length`, its `generatedPos` is its
`originalPos` shifted by `t`, and its `length` is the length of its
`inserted` text. -/
def ledgerWF (t : Nat) : List AddedCode → Prop
  | [] => True
  | c :: rest =>
      c.length = c.inserted.length ∧ c.total = t + c.length ∧
        c.generatedPos = c.originalPos + t ∧ ledgerWF c.total rest

/-- Strict ordering of a ledger by `originalPos`. -/
def origSorted (l : List AddedCode) : Prop :=
  l.Chain' (fun a b => a.originalPos < b.originalPos)

/-- The ledger obtained by replaying a list of `insert(position, text)`
calls (in call order) against an initially empty `addedCode` array. -/
def buildLedger (ins : List (Nat × String)) : List AddedCode :=
  ins.foldl (fun acc pr => insertCode acc pr.1 pr.2) []

/-- The accumulator loop of `toVirtualPos`: walk the records, breaking at
the first one whose `originalPos` exceeds `pos`, adding up `length`s of
all earlier records, and finally return `pos + total`. -/
def toVirtualPosGo (pos total : Nat) : List AddedCode → Nat
  | [] => pos + total
  | added :: rest =>
      if pos < added.originalPos then pos + total
      else toVirtualPosGo pos (total + added.length) rest

/-- Embeds `toVirtualPos` of `sveltekit.ts` (the spec's
`toGeneratedPos`). -/
def toVirtualPos (pos : Nat) (addedCode : List AddedCode) : Nat :=
  toVirtualPosGo pos 0 addedCode

/-- The `{ pos, inGenerated }` result object of `toOriginalPos`.  `pos`
is an `Int` because the JS computation `pos - total` can go below zero
on degenerate queries. -/
structure OriginalPosResult where
  pos : Int
  inGenerated : Bool
deriving DecidableEq, Repr

/-- The post-loop check of `toOriginalPos`: with `prev` the record at
`idx - 1` (the last record consumed by the loop, or `none` when
`idx = 0`), report positions strictly inside `prev`'s inserted span as
`inGenerated` anchored at `prev.originalPos`, otherwise subtract the
accumulated `total`. -/
def finishOrig (pos total : Nat) : Option AddedCode → OriginalPosResult
  | some prev =>
      if pos > prev.generatedPos ∧ pos < prev.generatedPos + prev.length then
        { pos := (prev.originalPos : Int), inGenerated := true }
      else
        { pos := (pos : Int) - (total : Int), inGenerated := false }
  | none => { pos := (pos : Int) - (total : Int), inGenerated := false }

/-- The scanning loop of `toOriginalPos`: break at the first record with
`pos < generatedPos`, accumulating earlier records' lengths, and track
the most recently consumed record (`addedCode[idx - 1]`). -/
def toOriginalPosGo (pos total : Nat) (prev : Option AddedCode) :
    List AddedCode → OriginalPosResult
  | [] => finishOrig pos total prev
  | added :: rest =>
      if pos < added.generatedPos then finishOrig pos total prev
      else toOriginalPosGo pos (total + added.length) (some added) rest

/-- Embeds `toOriginalPos` of `sveltekit.ts`. -/
def toOriginalPos (pos : Nat) (addedCode : List AddedCode) :
    OriginalPosResult :=
  toOriginalPosGo pos 0 none addedCode

/-- A generated position lies strictly inside the text span of the
record `c` (strictly between `generatedPos` and
`generatedPos + length`). -/
def insideSpan (c : AddedCode) (pos : Nat) : Prop :=
  c.generatedPos < pos ∧ pos < c.generatedPos + c.length

instance (c : AddedCode) (pos : Nat) : Decidable (insideSpan c pos) :=
  inferInstanceAs (Decidable (_ ∧ _))

/-- The span of record `a` in the generated text ends no later than the
span of record `b` begins. -/
def spanLE (a b : AddedCode) : Prop :=
  a.generatedPos + a.length ≤ b.generatedPos

instance : IsTrans AddedCode spanLE :=
  ⟨fun a b c h1 h2 => by unfold spanLE at *; omega⟩

/-- Sum of the `length` fields of a list of records. -/
def sumLen (l : List AddedCode) : Nat := (l.map (·.length)).sum

/-! ### String and path primitives (JS semantics)

The augmentor classifies files with `path.basename`, `path.extname`,
`String.prototype.slice`/`endsWith`/`includes`/`split`.  These are
modelled over `List Char` so that every definition kernel-evaluates. -/

/-- JS `hay.includes(sub)` on character lists. -/
def listContainsSub (sub : List Char) : List Char → Bool
  | [] => sub.isEmpty
  | h :: t => sub.isPrefixOf (h :: t) || listContainsSub sub t

/-- JS `s.includes(sub)`. -/
def includesSub (s sub : String) : Bool := listContainsSub sub.data s.data

/-- The characters before the first occurrence of `c`
(JS `s.split(c)[0]`). -/
def takeUntilChar (c : Char) : List Char → List Char
  | [] => []
  | h :: t => if h == c then [] else h :: takeUntilChar c t

/-- Index of the last `'.'` in the list, if any. -/
def lastDotIdx : List Char → Option Nat
  | [] => none
  | h :: t =>
      match lastDotIdx t with
      | some i => some (i + 1)
      | none => if h == '.' then some 0 else none

/-- Node's `path.extname` applied to a basename: the suffix from the
last `'.'`, or the empty string when there is no dot or the only dot
leads the name (dotfile). -/
def extname (b : String) : String :=
  match lastDotIdx b.data with
  | none => ""
  | some 0 => ""
  | some i => String.mk (b.data.drop i)

/-- JS `s.slice(0, -n)` for a non-negative JS number `n`: since
`-0 === 0`, `n = 0` yields the empty string (`slice(0, 0)`); otherwise
the last `n` characters are dropped (clamped at the start). -/
def jsSliceNeg (s : String) (n : Nat) : String :=
  if n = 0 then "" else String.mk (s.data.take (s.data.length - n))

/-- JS `s.endsWith(t)`. -/
def endsWithStr (s t : String) : Bool := t.data.isSuffixOf s.data

/-- The suffix after the last `'/'` (accumulator resets at every
separator). -/
def lastPart (l : List Char) : List Char :=
  l.foldl (fun acc c => if c == '/' then [] else acc ++ [c]) []

/-- Node's `path.basename` for the POSIX paths used here: trailing
separators dropped, then the suffix after the last `'/'`. -/
def pathBasename (s : String) : String :=
  String.mk (lastPart ((s.data.reverse.dropWhile (fun c => c == '/')).reverse))

/-! ### File-kind classification (`isKitFile` and friends) -/

/-- The `kitPageFiles` set of `sveltekit.ts`. -/
def kitPageFiles : List String :=
  ["+page", "+layout", "+page.server", "+layout.server", "+server"]

/-- Embeds `isKitRouteFile`: truncate the basename at the first `'@'`
when present, otherwise strip the extension (`slice(0, -ext.length)`),
then test membership in `kitPageFiles`. -/
def isKitRouteFile (basename : String) : Bool :=
  let b :=
    if includesSub basename "@" then String.mk (takeUntilChar '@' basename.data)
    else jsSliceNeg basename (extname basename).length
  kitPageFiles.contains b

/-- Embeds the `KitFilesSettings` interface. -/
structure KitFilesSettings where
  serverHooksPath : String
  clientHooksPath : String
  paramsPath : String
deriving DecidableEq, Repr

/-- Embeds `isServerHooksFile`. -/
def isServerHooksFile (fileName basename serverHooksPath : String) : Bool :=
  ((basename == "index.ts" || basename == "index.js") &&
      endsWithStr (jsSliceNeg fileName (basename.length + 1)) serverHooksPath)
    || endsWithStr (jsSliceNeg fileName (extname basename).length)
        serverHooksPath

/-- Embeds `isClientHooksFile`. -/
def isClientHooksFile (fileName basename clientHooksPath : String) : Bool :=
  ((basename == "index.ts" || basename == "index.js") &&
      endsWithStr (jsSliceNeg fileName (basename.length + 1)) clientHooksPath)
    || endsWithStr (jsSliceNeg fileName (extname basename).length)
        clientHooksPath

/-- Embeds `isParamsFile`. -/
def isParamsFile (fileName basename paramsPath : String) : Bool :=
  endsWithStr (jsSliceNeg fileName (basename.length + 1)) paramsPath
    && !(includesSub basename ".test") && !(includesSub basename ".spec")

/-- Embeds `isKitFile`. -/
def isKitFile (fileName : String) (options : KitFilesSettings) : Bool :=
  let basename := pathBasename fileName
  isKitRouteFile basename
    || isServerHooksFile fileName basename options.serverHooksPath
    || isClientHooksFile fileName basename options.clientHooksPath
    || isParamsFile fileName basename options.paramsPath

/-! ### The augmentor's view of parsed sources

`findExports` (the Export/Declaration Scanner) lives in the helper
`typescript.ts`, outside the covered source, and the syntax-tree nodes
come from the external target-language parser; both are modelled from
the spec (sections 4.2 and 6). -/

/-- Modelled from the spec: the missing external syntax-tree function
node (section 6 "function declarations/expressions/arrow functions with
parameter lists and optional return-type annotations"): the end offsets
of its parameters (`getEnd`), whether `node.type` is present, the start
of its body if any, whether the node is an arrow function, and the
start offset of its `=>` token. -/
structure FunctionNode where
  paramEnds : List Nat
  typePresent : Bool
  bodyStart : Option Nat
  isArrow : Bool
  arrowStart : Nat
deriving DecidableEq, Repr

/-- Modelled from the spec: the missing external syntax-tree variable
declaration node: the end offset of its name, whether an initializer is
present, and the initializer's end offset. -/
structure VarNode where
  nameEnd : Nat
  hasInit : Bool
  initEnd : Nat
deriving DecidableEq, Repr

/-- Modelled from the spec: one entry of the export descriptor produced
by the missing `findExports` scanner (section 4.2): a function or
variable export, with the scanner's `hasTypeDefinition` flag recording
whether an explicit type annotation is already present. -/
inductive ExportEntry where
  | fn (hasTypeDefinition : Bool) (node : FunctionNode)
  | varE (hasTypeDefinition : Bool) (node : VarNode)
deriving DecidableEq, Repr

/-- Modelled from the spec: the parsed source supplied by `getSource` —
its export descriptor (what the missing `findExports` returns on it)
plus the file's full text (`getFullText`). -/
structure SourceFileModel where
  exports : List (String × ExportEntry)
  fullText : String
deriving DecidableEq, Repr

/-- `exports.get(name)` on the descriptor map. -/
def lookupExport (exports : List (String × ExportEntry)) (name : String) :
    Option ExportEntry :=
  (exports.find? (fun p => p.1 == name)).map (fun p => p.2)

/-! ### Insert-call sequences of the augmentor strategies

Each strategy is modelled as the list of `insert(pos, text)` calls it
performs, in call order; its ledger is `buildLedger` of that list, as in
the source where the `insert` closure forwards to `insertCode`. -/

/-- The insertion text built for an untyped `load` export
(the template string of `upserKitRouteFile`). -/
def loadEventTypeString (basename : String) : String :=
  ": import('./$types.js')."
    ++ (if includesSub basename "layout" then "Layout" else "Page")
    ++ (if includesSub basename "server" then "Server" else "")
    ++ "LoadEvent"

/-- The insert calls of the `load` branch of `upserKitRouteFile`: one
parameter-type insertion at the end of the single parameter when the
export is an untyped single-parameter function, nothing otherwise. -/
def loadCalls (basename : String) (exports : List (String × ExportEntry))
    (surround : String → String) : List (Nat × String) :=
  match lookupExport exports "load" with
  | some (.fn hasType node) =>
      if node.paramEnds.length == 1 && !hasType then
        [(node.paramEnds.headD 0, surround (loadEventTypeString basename))]
      else []
  | _ => []

/-- The insert calls of the `actions` branch of `upserKitRouteFile`. -/
def actionsCalls (exports : List (String × ExportEntry))
    (surround : String → String) : List (Nat × String) :=
  match lookupExport exports "actions" with
  | some (.varE hasType node) =>
      if !hasType && node.hasInit then
        [(node.initEnd, surround " satisfies import('./$types.js').Actions")]
      else []
  | _ => []

/-- Embeds `addTypeToVariable` as its insert-call list. -/
def addTypeToVariableCalls (exports : List (String × ExportEntry))
    (surround : String → String) (name ty : String) : List (Nat × String) :=
  match lookupExport exports name with
  | some (.varE hasType node) =>
      if !hasType && node.hasInit then
        [(node.nameEnd, surround (" : " ++ ty))]
      else []
  | _ => []

/-- Embeds `addTypeToFunction` as its insert-call list: for an untyped
single-parameter function export, a parameter-type insertion at the
parameter's end, and, when the node carries no return type but has a
body, a return-type insertion before the body (at the `=>` token for
arrow functions). -/
def addTypeToFunctionCalls (exports : List (String × ExportEntry))
    (surround : String → String) (name ty : String)
    (returnType : Option String) : List (Nat × String) :=
  match lookupExport exports name with
  | some (.fn hasType node) =>
      if node.paramEnds.length == 1 && !hasType then
        (node.paramEnds.headD 0,
            surround (match returnType with
              | none => ": Parameters<" ++ ty ++ ">[0]"
              | some _ => ": " ++ ty))
          :: (if !node.typePresent then
                match node.bodyStart with
                | some bStart =>
                    [((if node.isArrow then node.arrowStart else bStart),
                      surround (match returnType with
                        | none => ": ReturnType<" ++ ty ++ "> "
                        | some rt => ": " ++ rt ++ " "))]
                | none => []
              else [])
      else []
  | _ => []

/-- The insert calls of `upserKitRouteFile`, in source order: `load`,
`actions`, the four typed variables, then the six API methods. -/
def routeInsertCalls (basename : String)
    (exports : List (String × ExportEntry)) (surround : String → String) :
    List (Nat × String) :=
  loadCalls basename exports surround
    ++ actionsCalls exports surround
    ++ addTypeToVariableCalls exports surround "prerender" "boolean | 'auto'"
    ++ addTypeToVariableCalls exports surround "trailingSlash"
        "'never' | 'always' | 'ignore'"
    ++ addTypeToVariableCalls exports surround "ssr" "boolean"
    ++ addTypeToVariableCalls exports surround "csr" "boolean"
    ++ addTypeToFunctionCalls exports surround "GET"
        "import('./$types.js').RequestEvent" (some "Response | Promise<Response>")
    ++ addTypeToFunctionCalls exports surround "PUT"
        "import('./$types.js').RequestEvent" (some "Response | Promise<Response>")
    ++ addTypeToFunctionCalls exports surround "POST"
        "import('./$types.js').RequestEvent" (some "Response | Promise<Response>")
    ++ addTypeToFunctionCalls exports surround "PATCH"
        "import('./$types.js').RequestEvent" (some "Response | Promise<Response>")
    ++ addTypeToFunctionCalls exports surround "DELETE"
        "import('./$types.js').RequestEvent" (some "Response | Promise<Response>")
    ++ addTypeToFunctionCalls exports surround "OPTIONS"
        "import('./$types.js').RequestEvent" (some "Response | Promise<Response>")

/-- The insert calls of `upserKitServerHooksFile`. -/
def serverHooksInsertCalls (exports : List (String × ExportEntry))
    (surround : String → String) : List (Nat × String) :=
  addTypeToFunctionCalls exports surround "handleError"
      "import('@sveltejs/kit').HandleServerError" none
    ++ addTypeToFunctionCalls exports surround "handle"
        "import('@sveltejs/kit').Handle" none
    ++ addTypeToFunctionCalls exports surround "handleFetch"
        "import('@sveltejs/kit').HandleFetch" none

/-- The insert calls of `upserKitClientHooksFile`. -/
def clientHooksInsertCalls (exports : List (String × ExportEntry))
    (surround : String → String) : List (Nat × String) :=
  addTypeToFunctionCalls exports surround "handleError"
    "import('@sveltejs/kit').HandleClientError" none

/-- The insert calls of `upserKitParamsFile`. -/
def paramsInsertCalls (exports : List (String × ExportEntry))
    (surround : String → String) : List (Nat × String) :=
  addTypeToFunctionCalls exports surround "match" "string" (some "boolean")

/-! ### The four augmentation strategies and `upsertKitFile` -/

/-- Embeds `upserKitRouteFile`: nothing unless the basename matches the
route pattern and a parsed source is available; otherwise the ledger of
its insert calls together with the original text. -/
def upserKitRouteFile (basename : String)
    (getSource : Option SourceFileModel) (surround : String → String) :
    Option (List AddedCode × String) :=
  if isKitRouteFile basename then
    match getSource with
    | none => none
    | some source =>
        some (buildLedger (routeInsertCalls basename source.exports surround),
          source.fullText)
  else none

/-- Embeds `upserKitServerHooksFile`. -/
def upserKitServerHooksFile (fileName basename serverHooksPath : String)
    (getSource : Option SourceFileModel) (surround : String → String) :
    Option (List AddedCode × String) :=
  if isServerHooksFile fileName basename serverHooksPath then
    match getSource with
    | none => none
    | some source =>
        some (buildLedger (serverHooksInsertCalls source.exports surround),
          source.fullText)
  else none

/-- Embeds `upserKitClientHooksFile`. -/
def upserKitClientHooksFile (fileName basename clientHooksPath : String)
    (getSource : Option SourceFileModel) (surround : String → String) :
    Option (List AddedCode × String) :=
  if isClientHooksFile fileName basename clientHooksPath then
    match getSource with
    | none => none
    | some source =>
        some (buildLedger (clientHooksInsertCalls source.exports surround),
          source.fullText)
  else none

/-- Embeds `upserKitParamsFile`. -/
def upserKitParamsFile (fileName basename paramsPath : String)
    (getSource : Option SourceFileModel) (surround : String → String) :
    Option (List AddedCode × String) :=
  if isParamsFile fileName basename paramsPath then
    match getSource with
    | none => none
    | some source =>
        some (buildLedger (paramsInsertCalls source.exports surround),
          source.fullText)
  else none

/-- JS `s.slice(a, b)` for non-negative `a ≤ b` (clamped). -/
def strSlice (s : String) (a b : Nat) : String :=
  String.mk ((s.data.take b).drop a)

/-- The text-assembly loop at the end of `upsertKitFile`: for each
record, append the original slice up to its `originalPos` followed by
its inserted text, then append the remaining tail. -/
def assembleText (originalText : String) (addedCode : List AddedCode) :
    String :=
  let step := addedCode.foldl
    (fun (acc : String × Nat) added =>
      (acc.1 ++ strSlice originalText acc.2 added.originalPos
          ++ added.inserted,
        added.originalPos))
    ("", 0)
  step.1 ++ strSlice originalText step.2 originalText.length

/-- The tail of `upsertKitFile`: `undefined` stays `undefined`, and a
strategy result is turned into the assembled text plus the ledger. -/
def assembleResult :
    Option (List AddedCode × String) → Option (String × List AddedCode)
  | none => none
  | some (addedCode, originalText) =>
      some (assembleText originalText addedCode, addedCode)

/-- Embeds `upsertKitFile`: the four strategies tried with `??` in the
fixed order route, server hooks, client hooks, params; the first
non-`undefined` result is assembled. -/
def upsertKitFile (fileName : String) (settings : KitFilesSettings)
    (getSource : Option SourceFileModel) (surround : String → String) :
    Option (String × List AddedCode) :=
  let basename := pathBasename fileName
  assembleResult
    (match upserKitRouteFile basename getSource surround with
     | some r => some r
     | none =>
       match upserKitServerHooksFile fileName basename
           settings.serverHooksPath getSource surround with
       | some r => some r
       | none =>
         match upserKitClientHooksFile fileName basename
             settings.clientHooksPath getSource surround with
         | some r => some r
         | none =>
             upserKitParamsFile fileName basename settings.paramsPath
               getSource surround)

/-! ### The transpiler's script rewriting (`svelte2tsx`)

`replaceExports`, `declareImplictReactiveVariables` and the
return-statement synthesis of `processScriptTag` operate on the
top-level statements of the instance script's parsed syntax tree (an
external collaborator, modelled as `TsStatement` below) and perform
`MagicString` edits (modelled as recorded edit calls).  A thrown
`Error` is modelled as `Except.error`; `svelte2tsx` installs no
handler, so an error aborts the whole transformation with no output. -/

/-- A binding name in the parsed script: a plain identifier or any
unsupported shape (destructuring pattern and the like). -/
inductive BindingName where
  | ident (text : String)
  | pattern
deriving DecidableEq, Repr

/-- An element of an export clause `export { a }` / `export { a as b }`:
the optional `propertyName` (the source name before `as`) and the
exported `name`. -/
structure ExportSpecifier where
  propertyName : Option BindingName
  name : BindingName
deriving DecidableEq, Repr

/-- The body of a labeled statement, as far as
`declareImplictReactiveVariables` discriminates it: an expression
statement that is an `=` assignment to a bare identifier, or any other
shape (which the source skips with `continue`). -/
inductive LabeledBody where
  | assignIdent (text : String)
  | otherBody
deriving DecidableEq, Repr

/-- A top-level statement of the instance script, restricted to the
shapes the transpiler inspects: variable statements and function
declarations with an optional `export` modifier (carrying the
modifier's `pos`/`end`), export-clause declarations (with the
statement's `pos`/`end`), labeled statements (with their `pos`), and
everything else. -/
inductive TsStatement where
  | varStmt (exportMod : Option (Nat × Nat)) (decls : List BindingName)
  | funcDecl (exportMod : Option (Nat × Nat)) (name : BindingName)
  | exportDecl (pos endPos : Nat) (elements : List ExportSpecifier)
  | labeledStmt (label : String) (pos : Nat) (body : LabeledBody)
  | otherStmt
deriving DecidableEq, Repr

/-- The characters of the string "export". -/
def exportKeyword : List Char := "export".data

/-- Scan of JS `indexOf`: the absolute index of the first occurrence of
`needle` in the remaining hay, counting from `i`, or `-1`. -/
def findSubstrAux (needle : List Char) : List Char → Nat → Int
  | [], i => if needle.isEmpty then (i : Int) else -1
  | h :: t, i =>
      if needle.isPrefixOf (h :: t) then (i : Int)
      else findSubstrAux needle t (i + 1)

/-- JS `hay.indexOf(needle, start)` (on characters). -/
def findSubstrFrom (hay needle : List Char) (start : Nat) : Int :=
  findSubstrAux needle (hay.drop start) start

/-- Embeds `removeExport` of `replaceExports`: locate the text
"export" from the statement start (`str.original.indexOf`, `-1` when
absent) and remove the six keyword characters; the removed range is
recorded as a pair. -/
def removeExportCall (original : String) (astOffset start : Nat) :
    Int × Int :=
  let exportStart := findSubstrFrom original.data exportKeyword
    (start + astOffset)
  (exportStart, exportStart + (exportKeyword.length : Int))

/-- The mutable state of `replaceExports`: the `exportedNames` map (a
JS `Map`, insertion-ordered, modelled as an association list), the
`declaredNames` array, and the ranges removed from the `MagicString`. -/
structure ReplaceState where
  exportedNames : List (String × Option String)
  declaredNames : List String
  removals : List (Int × Int)
deriving DecidableEq, Repr

/-- JS `Map.prototype.set`: update the value in place when the key is
present (keeping insertion order), append otherwise. -/
def mapSet (m : List (String × Option String)) (k : String)
    (v : Option String) : List (String × Option String) :=
  if m.any (fun p => p.1 == k) then
    m.map (fun p => if p.1 == k then (k, v) else p)
  else m ++ [(k, v)]

/-- JS `Map.prototype.get` (with `some v` for a present key of value
`v`). -/
def lookupVal (m : List (String × Option String)) (k : String) :
    Option (Option String) :=
  (m.find? (fun p => p.1 == k)).map (fun p => p.2)

/-- Embeds `addExport`: a non-identifier source or rename target is a
thrown `Error`; otherwise `exportedNames.set(name.text, target?.text ??
null)`. -/
def addExport (st : ReplaceState) (name : BindingName)
    (target : Option BindingName) : Except String ReplaceState :=
  match name with
  | .pattern => Except.error "export source kind not supported"
  | .ident t =>
      match target with
      | none =>
          Except.ok { st with exportedNames := mapSet st.exportedNames t none }
      | some .pattern => Except.error "export target kind not supported"
      | some (.ident u) =>
          Except.ok
            { st with exportedNames := mapSet st.exportedNames t (some u) }

/-- Embeds `addDeclaredName`: records identifier names, silently skips
other shapes. -/
def addDeclaredName (st : ReplaceState) (name : BindingName) :
    ReplaceState :=
  match name with
  | .ident t => { st with declaredNames := st.declaredNames ++ [t] }
  | .pattern => st

/-- The loop over a variable statement's declarations: `addExport` when
the statement carries an `export` modifier, then `addDeclaredName`. -/
def processVarDecls (hasExport : Bool) (st : ReplaceState) :
    List BindingName → Except String ReplaceState
  | [] => Except.ok st
  | v :: rest => do
      let st1 ← if hasExport then addExport st v none else Except.ok st
      processVarDecls hasExport (addDeclaredName st1 v) rest

/-- The loop over an export clause's elements: `addExport` with the
optional rename, then `removeExport` over the whole declaration (the
source calls it once per element). -/
def processExportSpecifiers (original : String) (astOffset edPos : Nat)
    (st : ReplaceState) : List ExportSpecifier → Except String ReplaceState
  | [] => Except.ok st
  | ne :: rest => do
      let st1 ←
        match ne.propertyName with
        | some p => addExport st p (some ne.name)
        | none => addExport st ne.name none
      let st2 := { st1 with
        removals := st1.removals ++ [removeExportCall original astOffset edPos] }
      processExportSpecifiers original astOffset edPos st2 rest

/-- One iteration of `replaceExports`' statement loop. -/
def processStatement (original : String) (astOffset : Nat)
    (st : ReplaceState) : TsStatement → Except String ReplaceState
  | .varStmt exportMod decls =>
      let st1 :=
        match exportMod with
        | some (mpos, _) =>
            { st with
              removals := st.removals
                ++ [removeExportCall original astOffset mpos] }
        | none => st
      processVarDecls exportMod.isSome st1 decls
  | .funcDecl exportMod name =>
      (match exportMod with
       | some (mpos, _) => do
           let st1 ← addExport st name none
           let st2 := { st1 with
             removals := st1.removals
               ++ [removeExportCall original astOffset mpos] }
           Except.ok (addDeclaredName st2 name)
       | none => Except.ok (addDeclaredName st name))
  | .exportDecl pos _ elements =>
      processExportSpecifiers original astOffset pos st elements
  | .labeledStmt _ _ _ => Except.ok st
  | .otherStmt => Except.ok st

/-- The statement loop of `replaceExports`. -/
def replaceExportsGo (original : String) (astOffset : Nat)
    (st : ReplaceState) : List TsStatement → Except String ReplaceState
  | [] => Except.ok st
  | s :: rest => do
      let st1 ← processStatement original astOffset st s
      replaceExportsGo original astOffset st1 rest

/-- Embeds `replaceExports` (returning the `exportedNames` and
`declaredNames` it collects, together with the recorded removals). -/
def replaceExports (original : String) (astOffset : Nat)
    (statements : List TsStatement) : Except String ReplaceState :=
  replaceExportsGo original astOffset ⟨[], [], []⟩ statements

/-- The props entries of `processScriptTag`'s synthesized return
statement: `value ? value + ": " + key : key` per `exportedNames`
entry. -/
def returnElements (exportedNames : List (String × Option String)) :
    List String :=
  exportedNames.map (fun p =>
    match p.2 with
    | some v => v ++ ": " ++ p.1
    | none => p.1)

/-- The synthesized return statement string of `processScriptTag`. -/
def returnStringOf (exportedNames : List (String × Option String))
    (slotsAsString : String) : String :=
  "\nreturn \x7b props: \x7b"
    ++ String.intercalate " , " (returnElements exportedNames)
    ++ "\x7d, slots: " ++ slotsAsString ++ " \x7d\x7d"

/-- The per-statement decision of `declareImplictReactiveVariables`:
for a `$:`-labeled assignment to a bare identifier not yet declared, a
`prependRight(ls.pos + astOffset + 1, ";let x; ")` call. -/
def reactiveDeclOpt (declaredNames : List String) (astOffset : Nat) :
    TsStatement → Option (Nat × String)
  | .labeledStmt label p (.assignIdent x) =>
      if label == "$" then
        match declaredNames.find? (fun n => x == n) with
        | some _ => none
        | none => some (p + astOffset + 1, ";let " ++ x ++ "; ")
      else none
  | _ => none

/-- Embeds `declareImplictReactiveVariables` as the list of
`prependRight` calls it makes, in statement order. -/
def declareImplictReactiveVariables (declaredNames : List String)
    (statements : List TsStatement) (astOffset : Nat) :
    List (Nat × String) :=
  statements.foldl
    (fun acc s => acc ++ (reactiveDeclOpt declaredNames astOffset s).toList)
    []

/-- Whether a binding name is a plain identifier (the only shape
`addExport` accepts). -/
def bindingOk : BindingName → Bool
  | .ident _ => true
  | .pattern => false

/-- The source name an export-clause element hands to `addExport`
(`propertyName` when present, else `name`). -/
def exportSpecSource (ne : ExportSpecifier) : BindingName :=
  match ne.propertyName with
  | some p => p
  | none => ne.name

/-- Whether processing an export-clause element cannot throw. -/
def exportSpecifierOk (ne : ExportSpecifier) : Bool :=
  match ne.propertyName with
  | some p => bindingOk p && bindingOk ne.name
  | none => bindingOk ne.name

/-- Whether processing the statement can throw no structural-mismatch
error: every export binding it hands to `addExport` is a plain
identifier. -/
def statementExportsOk : TsStatement → Bool
  | .varStmt (some _) decls => decls.all bindingOk
  | .varStmt none _ => true
  | .funcDecl (some _) name => bindingOk name
  | .funcDecl none _ => true
  | .exportDecl _ _ elements => elements.all exportSpecifierOk
  | .labeledStmt _ _ _ => true
  | .otherStmt => true

/-- Whether processing the statement calls `addExport` with source name
`a` (and hence can change `exportedNames.get(a)`). -/
def exportsName (s : TsStatement) (a : String) : Bool :=
  match s with
  | .varStmt (some _) decls => decls.any (fun v => v == BindingName.ident a)
  | .funcDecl (some _) name => name == BindingName.ident a
  | .exportDecl _ _ elements =>
      elements.any (fun ne => exportSpecSource ne == BindingName.ident a)
  | _ => false

/-- The script-processing core of `processScriptTag` relevant to the
claims: run `replaceExports`, then (on success) collect the implicit
reactive-variable declarations and the synthesized return statement.  A
thrown `Error` (`Except.error`) propagates: `svelte2tsx` has no
handler, so the whole file's transformation aborts with no output. -/
def processScriptTagModel (original : String) (astOffset : Nat)
    (statements : List TsStatement) (slotsAsString : String) :
    Except String (ReplaceState × List (Nat × String) × String) :=
  match replaceExports original astOffset statements with
  | .error e => .error e
  | .ok st =>
      .ok (st,
        declareImplictReactiveVariables st.declaredNames statements astOffset,
        returnStringOf st.exportedNames slotsAsString)

theorem lastTotal_eq (t : Nat) (l : List AddedCode) :
    lastTotal t l = (l.getLast?.map (·.total)).getD t := by
  induction l generalizing t with
  | nil => rfl
  | cons c rest ih =>
    cases rest with
    | nil => rfl
    | cons d ds =>
      rw [show lastTotal t (c :: d :: ds) = lastTotal c.total (d :: ds) from rfl,
        List.getLast?_cons_cons]
      exact ih c.total

theorem prevTotalOf_eq (l : List AddedCode) : prevTotalOf l = lastTotal 0 l := by
  rw [lastTotal_eq]
  unfold prevTotalOf
  cases l.getLast? <;> rfl

theorem insertAux_spec (pos : Nat) (s : String) :
    ∀ (l : List AddedCode) (t : Nat),
      insertAux pos s t l =
        match l.findIdx? (fun c => pos < c.originalPos) with
        | some i =>
            l.take i ++ newRec pos s (lastTotal t (l.take i))
              :: (l.drop i).map (bump s.length)
        | none => l ++ [newRec pos s (lastTotal t l)] := by
  intro l
  induction l with
  | nil => intro t; rfl
  | cons c rest ih =>
    intro t
    by_cases h : pos < c.originalPos
    · simp [insertAux, h, List.findIdx?_cons, lastTotal]
    · have hfalse : decide (pos < c.originalPos) = false := by
        simp [h]
      rw [insertAux, if_neg h]
      simp only [List.findIdx?_cons, hfalse, if_false, List.findIdx?_succ]
      cases hidx : rest.findIdx? (fun c => decide (pos < c.originalPos)) with
      | none =>
        have hrw := ih c.total
        rw [hidx] at hrw
        simp [hrw, hidx, lastTotal]
      | some j =>
        have hrw := ih c.total
        rw [hidx] at hrw
        simp [hrw, hidx, lastTotal, List.take_succ_cons, List.drop_succ_cons]

/-- `insertCode` agrees with its recursive rendition `insertAux`. -/
theorem insertCode_eq_insertAux (l : List AddedCode) (pos : Nat) (s : String) :
    insertCode l pos s = insertAux pos s 0 l := by
  rw [insertAux_spec]
  unfold insertCode
  cases h : l.findIdx? (fun c => pos < c.originalPos) with
  | none => simp [prevTotalOf_eq]
  | some i => simp [prevTotalOf_eq]

theorem ledgerWF_bump (n : Nat) :
    ∀ (l : List AddedCode) (t : Nat), ledgerWF t l →
      ledgerWF (t + n) (l.map (bump n)) := by
  intro l
  induction l with
  | nil => intro t _; trivial
  | cons c rest ih =>
    intro t h
    obtain ⟨hlen, htot, hgen, hrest⟩ := h
    refine ⟨by simpa [bump] using hlen, by simp [bump, htot]; omega,
      by simp [bump, hgen]; omega, ?_⟩
    have := ih c.total hrest
    simpa [bump, Nat.add_right_comm] using this

theorem insertAux_ledgerWF (pos : Nat) (s : String) :
    ∀ (l : List AddedCode) (t : Nat), ledgerWF t l →
      ledgerWF t (insertAux pos s t l) := by
  intro l
  induction l with
  | nil =>
    intro t _
    exact ⟨rfl, by simp [newRec], by simp [newRec], trivial⟩
  | cons c rest ih =>
    intro t h
    obtain ⟨hlen, htot, hgen, hrest⟩ := h
    by_cases hcmp : pos < c.originalPos
    · rw [insertAux, if_pos hcmp]
      refine ⟨rfl, by simp [newRec], by simp [newRec], ?_⟩
      have := ledgerWF_bump s.length (c :: rest) t ⟨hlen, htot, hgen, hrest⟩
      simpa [newRec, Nat.add_comm] using this
    · rw [insertAux, if_neg hcmp]
      exact ⟨hlen, htot, hgen, ih c.total hrest⟩

theorem insertAux_origs (pos : Nat) (s : String) :
    ∀ (l : List AddedCode) (t : Nat) (c : AddedCode),
      c ∈ insertAux pos s t l →
      c.originalPos = pos ∨ c.originalPos ∈ l.map (·.originalPos) := by
  intro l
  induction l with
  | nil =>
    intro t c hc
    simp only [insertAux, List.mem_singleton] at hc
    left; rw [hc]; rfl
  | cons d rest ih =>
    intro t c hc
    by_cases hcmp : pos < d.originalPos
    · rw [insertAux, if_pos hcmp] at hc
      rcases List.mem_cons.mp hc with hc | hc
      · left; rw [hc]; rfl
      · right
        rcases List.mem_map.mp hc with ⟨e, he, hbe⟩
        rw [← hbe]
        exact List.mem_map.mpr ⟨e, he, rfl⟩
    · rw [insertAux, if_neg hcmp] at hc
      rcases List.mem_cons.mp hc with hc | hc
      · right; rw [hc]; simp
      · rcases ih d.total c hc with h | h
        · left; exact h
        · right; simp [h]

theorem insertAux_sorted (pos : Nat) (s : String) :
    ∀ (l : List AddedCode) (t : Nat), origSorted l →
      (∀ c ∈ l, c.originalPos ≠ pos) →
      origSorted (insertAux pos s t l) := by
  intro l
  induction l with
  | nil => intro t _ _; simp [insertAux, origSorted]
  | cons c rest ih =>
    intro t hs hne
    by_cases hcmp : pos < c.originalPos
    · rw [insertAux, if_pos hcmp]
      have hmap : origSorted ((c :: rest).map (bump s.length)) := by
        unfold origSorted at hs ⊢
        rw [List.chain'_map]
        simpa [bump] using hs
      unfold origSorted
      rw [List.map_cons]
      refine List.Chain'.cons ?_ hmap
      simpa [newRec, bump] using hcmp
    · rw [insertAux, if_neg hcmp]
      have hcpos : c.originalPos < pos := by
        have := hne c (by simp)
        omega
      have hrest : origSorted (insertAux pos s c.total rest) :=
        ih c.total hs.tail (fun d hd => hne d (by simp [hd]))
      unfold origSorted
      rw [List.chain'_cons']
      refine ⟨?_, hrest⟩
      intro b hb
      cases rest with
      | nil =>
        simp only [insertAux, List.head?_cons, Option.mem_def,
          Option.some_inj] at hb
        rw [← hb]
        simpa [newRec] using hcpos
      | cons d ds =>
        by_cases hd : pos < d.originalPos
        · rw [insertAux, if_pos hd] at hb
          simp only [List.head?_cons, Option.mem_def, Option.some_inj] at hb
          rw [← hb]
          simpa [newRec] using hcpos
        · rw [insertAux, if_neg hd] at hb
          simp only [List.head?_cons, Option.mem_def, Option.some_inj] at hb
          rw [← hb]
          exact (List.chain'_cons.mp hs).1

theorem foldl_insert_invariant :
    ∀ (ins : List (Nat × String)) (acc : List AddedCode),
      ledgerWF 0 acc → origSorted acc →
      (∀ pr ∈ ins, ∀ c ∈ acc, c.originalPos ≠ pr.1) →
      ins.Pairwise (fun a b => a.1 ≠ b.1) →
      ledgerWF 0 (ins.foldl (fun acc pr => insertCode acc pr.1 pr.2) acc) ∧
        origSorted (ins.foldl (fun acc pr => insertCode acc pr.1 pr.2) acc) := by
  intro ins
  induction ins with
  | nil => intro acc hwf hs _ _; exact ⟨hwf, hs⟩
  | cons q rest ih =>
    intro acc hwf hs hdisj hpw
    have hq : ∀ c ∈ acc, c.originalPos ≠ q.1 :=
      fun c hc => hdisj q (by simp) c hc
    have hwf' : ledgerWF 0 (insertCode acc q.1 q.2) := by
      rw [insertCode_eq_insertAux]
      exact insertAux_ledgerWF q.1 q.2 acc 0 hwf
    have hs' : origSorted (insertCode acc q.1 q.2) := by
      rw [insertCode_eq_insertAux]
      exact insertAux_sorted q.1 q.2 acc 0 hs hq
    have hdisj' : ∀ pr ∈ rest, ∀ c ∈ insertCode acc q.1 q.2,
        c.originalPos ≠ pr.1 := by
      intro pr hpr c hc
      rw [insertCode_eq_insertAux] at hc
      rcases insertAux_origs q.1 q.2 acc 0 c hc with h | h
      · rw [h]
        exact (List.pairwise_cons.mp hpw).1 pr hpr
      · rcases List.mem_map.mp h with ⟨e, he, hoe⟩
        intro hcontra
        exact hdisj pr (by simp [hpr]) e he (by rw [hoe]; exact hcontra)
    simpa using ih (insertCode acc q.1 q.2) hwf' hs' hdisj'
      (List.pairwise_cons.mp hpw).2

theorem buildLedger_wf (ins : List (Nat × String))
    (h : ins.Pairwise (fun a b => a.1 ≠ b.1)) :
    ledgerWF 0 (buildLedger ins) ∧ origSorted (buildLedger ins) :=
  foldl_insert_invariant ins [] trivial (by simp [origSorted])
    (by simp) h

theorem toVirtualPosGo_cons (p t : Nat) (c : AddedCode)
    (rest : List AddedCode) :
    toVirtualPosGo p t (c :: rest) =
      if p < c.originalPos then p + t
      else toVirtualPosGo p (t + c.length) rest := rfl

theorem toOriginalPosGo_cons (p t : Nat) (prev : Option AddedCode)
    (c : AddedCode) (rest : List AddedCode) :
    toOriginalPosGo p t prev (c :: rest) =
      if p < c.generatedPos then finishOrig p t prev
      else toOriginalPosGo p (t + c.length) (some c) rest := rfl

theorem toVirtualPosGo_ge (p : Nat) :
    ∀ (l : List AddedCode) (t : Nat), p + t ≤ toVirtualPosGo p t l := by
  intro l
  induction l with
  | nil => intro t; exact Nat.le_refl _
  | cons c rest ih =>
    intro t
    rw [toVirtualPosGo_cons]
    by_cases h : p < c.originalPos
    · rw [if_pos h]
    · rw [if_neg h]
      calc p + t ≤ p + (t + c.length) := by omega
        _ ≤ _ := ih (t + c.length)

theorem roundtrip_go (p : Nat) :
    ∀ (l : List AddedCode) (t : Nat) (prev : Option AddedCode),
      ledgerWF t l →
      (∀ c, prev = some c → c.generatedPos + c.length ≤ p + t) →
      toOriginalPosGo (toVirtualPosGo p t l) t prev l =
        { pos := (p : Int), inGenerated := false } := by
  intro l
  induction l with
  | nil =>
    intro t prev _ hprev
    show finishOrig (p + t) t prev = _
    cases prev with
    | none =>
      simp only [finishOrig, OriginalPosResult.mk.injEq]
      refine ⟨by push_cast; omega, trivial⟩
    | some c =>
      have hc := hprev c rfl
      rw [finishOrig, if_neg (by omega)]
      simp only [OriginalPosResult.mk.injEq]
      refine ⟨by push_cast; omega, trivial⟩
  | cons c rest ih =>
    intro t prev hwf hprev
    obtain ⟨hlen, htot, hgen, hrest⟩ := hwf
    by_cases h : p < c.originalPos
    · have hg : toVirtualPosGo p t (c :: rest) = p + t := by
        rw [toVirtualPosGo_cons, if_pos h]
      rw [hg]
      have hbreak : p + t < c.generatedPos := by omega
      rw [toOriginalPosGo_cons, if_pos hbreak]
      cases prev with
      | none =>
        simp only [finishOrig, OriginalPosResult.mk.injEq]
        refine ⟨by push_cast; omega, trivial⟩
      | some c0 =>
        have hc0 := hprev c0 rfl
        rw [finishOrig, if_neg (by omega)]
        simp only [OriginalPosResult.mk.injEq]
        refine ⟨by push_cast; omega, trivial⟩
    · have hg : toVirtualPosGo p t (c :: rest)
          = toVirtualPosGo p (t + c.length) rest := by
        rw [toVirtualPosGo_cons, if_neg h]
      rw [hg]
      have hge : p + (t + c.length) ≤ toVirtualPosGo p (t + c.length) rest :=
        toVirtualPosGo_ge p rest (t + c.length)
      have hnb : ¬ toVirtualPosGo p (t + c.length) rest < c.generatedPos := by
        omega
      rw [toOriginalPosGo_cons, if_neg hnb]
      have hwfrest : ledgerWF (t + c.length) rest := by
        rw [← htot]; exact hrest
      have := ih (t + c.length) (some c) hwfrest ?_
      · exact this
      · intro d hd
        injection hd with hd
        subst hd
        omega

/-- Helper: `insertCode` replayed over a call list whose positions are
strictly increasing yields a structurally well-formed, strictly
`originalPos`-sorted ledger. -/
theorem buildLedger_wf_of_increasing (ins : List (Nat × String))
    (hinc : ins.Chain' (fun a b => a.1 < b.1)) :
    ledgerWF 0 (buildLedger ins) ∧ origSorted (buildLedger ins) := by
  apply buildLedger_wf
  have hpw : ins.Pairwise (fun a b => a.1 < b.1) := by
    haveI : IsTrans (Nat × String) (fun a b => a.1 < b.1) :=
      ⟨fun a b c h1 h2 => Nat.lt_trans h1 h2⟩
    exact List.chain'_iff_pairwise.mp hinc
  exact hpw.imp (fun h => Nat.ne_of_lt h)

/-! ### Span geometry of well-formed ledgers -/

theorem wf_spanChain :
    ∀ (l : List AddedCode) (t : Nat), ledgerWF t l → origSorted l →
      l.Chain' spanLE := by
  intro l
  induction l with
  | nil => intro t _ _; simp
  | cons c rest ih =>
    intro t hwf hs
    obtain ⟨hlen, htot, hgen, hrest⟩ := hwf
    rw [List.chain'_cons']
    refine ⟨?_, ih c.total hrest hs.tail⟩
    intro d hd
    cases rest with
    | nil => simp at hd
    | cons e es =>
      simp only [List.head?_cons, Option.mem_def, Option.some_inj] at hd
      obtain ⟨_, _, hgen', _⟩ := hrest
      have hlt : c.originalPos < e.originalPos := (List.chain'_cons.mp hs).1
      rw [← hd]
      unfold spanLE
      omega

theorem toOriginalPosGo_breakAll (g t : Nat) (prev : Option AddedCode) :
    ∀ (l : List AddedCode), (∀ d ∈ l, g < d.generatedPos) →
      toOriginalPosGo g t prev l = finishOrig g t prev := by
  intro l h
  cases l with
  | nil => rfl
  | cons d rest =>
    rw [toOriginalPosGo_cons, if_pos (h d (by simp))]

theorem toOriginalPosGo_inside (g : Nat) :
    ∀ (l : List AddedCode) (t : Nat) (prev : Option AddedCode)
      (c : AddedCode),
      l.Chain' spanLE → c ∈ l → insideSpan c g →
      toOriginalPosGo g t prev l =
        { pos := (c.originalPos : Int), inGenerated := true } := by
  intro l
  induction l with
  | nil => intro t prev c _ hc; cases hc
  | cons d rest ih =>
    intro t prev c hch hc hin
    have hpw := List.chain'_iff_pairwise.mp hch
    rcases List.mem_cons.mp hc with hc | hc
    · subst hc
      obtain ⟨hlo, hhi⟩ := hin
      rw [toOriginalPosGo_cons, if_neg (by omega)]
      rw [toOriginalPosGo_breakAll]
      · rw [finishOrig, if_pos ⟨hlo, hhi⟩]
      · intro e he
        have hse : spanLE c e := (List.pairwise_cons.mp hpw).1 e he
        unfold spanLE at hse
        omega
    · obtain ⟨hlo, hhi⟩ := hin
      have hsd : spanLE d c := (List.pairwise_cons.mp hpw).1 c hc
      unfold spanLE at hsd
      rw [toOriginalPosGo_cons, if_neg (by omega)]
      exact ih (t + d.length) (some d) c hch.tail hc ⟨hlo, hhi⟩

theorem toOriginalPosGo_outside (g : Nat) :
    ∀ (l : List AddedCode) (t : Nat) (prev : Option AddedCode),
      l.Chain' spanLE →
      (∀ c ∈ l, ¬ insideSpan c g) →
      (∀ c, prev = some c → ¬ insideSpan c g) →
      toOriginalPosGo g t prev l =
        { pos := (g : Int)
            - ((t + sumLen (l.filter (fun c => decide (c.generatedPos ≤ g)))
                : Nat) : Int),
          inGenerated := false } := by
  intro l
  induction l with
  | nil =>
    intro t prev _ _ hprev
    show finishOrig g t prev = _
    cases prev with
    | none => simp [finishOrig, sumLen]
    | some c =>
      have hc := hprev c rfl
      unfold insideSpan at hc
      rw [finishOrig, if_neg (by omega)]
      simp [sumLen]
  | cons d rest ih =>
    intro t prev hch hnin hprev
    have hpw := List.chain'_iff_pairwise.mp hch
    by_cases hlt : g < d.generatedPos
    · rw [toOriginalPosGo_cons, if_pos hlt]
      have hfilter :
          (d :: rest).filter (fun c => decide (c.generatedPos ≤ g)) = [] := by
        rw [List.filter_eq_nil_iff]
        intro e he
        rcases List.mem_cons.mp he with he | he
        · subst he; simp; omega
        · have hse : spanLE d e := (List.pairwise_cons.mp hpw).1 e he
          unfold spanLE at hse
          simp
          omega
      rw [hfilter]
      cases prev with
      | none => simp [finishOrig, sumLen]
      | some c =>
        have hc := hprev c rfl
        unfold insideSpan at hc
        rw [finishOrig, if_neg (by omega)]
        simp [sumLen]
    · rw [toOriginalPosGo_cons, if_neg hlt]
      have hd : (fun c => decide (c.generatedPos ≤ g)) d = true := by
        simp; omega
      rw [List.filter_cons, if_pos hd]
      rw [ih (t + d.length) (some d) hch.tail
        (fun c hc => hnin c (by simp [hc]))
        (fun c hc => by injection hc with hc; subst hc; exact hnin d (by simp))]
      simp only [OriginalPosResult.mk.injEq]
      refine ⟨?_, trivial⟩
      have : sumLen (d :: rest.filter (fun c => decide (c.generatedPos ≤ g)))
          = d.length
            + sumLen (rest.filter (fun c => decide (c.generatedPos ≤ g))) := by
        simp [sumLen]
      rw [this]
      push_cast
      omega

/-! ### Ledger invariants, indexed form -/

theorem ledgerWF_total_get :
    ∀ (l : List AddedCode) (t : Nat), ledgerWF t l →
      ∀ (i : Nat) (h : i < l.length),
        (l.get ⟨i, h⟩).total = t + sumLen (l.take (i + 1)) := by
  intro l
  induction l with
  | nil => intro t _ i h; simp at h
  | cons c rest ih =>
    intro t hwf i h
    obtain ⟨hlen, htot, hgen, hrest⟩ := hwf
    cases i with
    | zero => simp [sumLen, htot]
    | succ j =>
      rw [List.get_cons_succ]
      have := ih c.total hrest j (by simpa using h)
      rw [this, htot]
      simp [sumLen]
      omega

theorem ledgerWF_gen_get :
    ∀ (l : List AddedCode) (t : Nat), ledgerWF t l →
      (∀ (h : 0 < l.length),
        (l.get ⟨0, h⟩).generatedPos = (l.get ⟨0, h⟩).originalPos + t) ∧
      (∀ (i : Nat) (h : i + 1 < l.length),
        (l.get ⟨i + 1, h⟩).generatedPos
          = (l.get ⟨i + 1, h⟩).originalPos
            + (l.get ⟨i, Nat.lt_of_succ_lt h⟩).total) := by
  intro l
  induction l with
  | nil =>
    intro t _
    constructor
    · intro h; simp at h
    · intro i h; simp at h
  | cons c rest ih =>
    intro t hwf
    obtain ⟨hlen, htot, hgen, hrest⟩ := hwf
    constructor
    · intro h
      exact hgen
    · intro i h
      cases i with
      | zero =>
        rw [List.get_cons_succ]
        have := (ih c.total hrest).1 (by simpa using h)
        simpa using this
      | succ j =>
        rw [List.get_cons_succ, List.get_cons_succ]
        have := (ih c.total hrest).2 j (by simpa using h)
        simpa using this

/-! ### Duplicate positions -/

theorem map_bump_originalPos (n : Nat) (l : List AddedCode) :
    (l.map (bump n)).map (·.originalPos) = l.map (·.originalPos) := by
  simp [List.map_map, bump, Function.comp]

theorem insertAux_count_orig (pos : Nat) (s : String) :
    ∀ (l : List AddedCode) (t : Nat),
      ((insertAux pos s t l).map (·.originalPos)).count pos
        = ((l.map (·.originalPos)).count pos) + 1 := by
  intro l
  induction l with
  | nil =>
    intro t
    simp [insertAux, newRec]
  | cons c rest ih =>
    intro t
    by_cases h : pos < c.originalPos
    · rw [insertAux, if_pos h]
      rw [List.map_cons, map_bump_originalPos]
      have : (newRec pos s t).originalPos = pos := rfl
      rw [this, List.count_cons_self]
    · rw [insertAux, if_neg h]
      rw [List.map_cons, List.map_cons, List.count_cons, List.count_cons,
        ih c.total]
      omega

/-! ### Claim theorems for the insertion ledger -/

/-- C1: For every ledger built by applying insert at strictly increasing
`originalPos` values, and for every original offset `p` whose generated
image does not fall strictly inside any inserted span,
`toOriginalPos (toVirtualPos p)` returns `p` with
`inGenerated = false`.  (`toVirtualPos` is the spec's
`toGeneratedPos`; the non-interior hypothesis is stated as in the claim,
although the round trip holds for every well-formed ledger.) -/
theorem claim_C1_roundtrip (ins : List (Nat × String)) (p : Nat)
    (hinc : ins.Chain' (fun a b => a.1 < b.1))
    (_hout : ∀ c ∈ buildLedger ins,
        ¬ insideSpan c (toVirtualPos p (buildLedger ins))) :
    toOriginalPos (toVirtualPos p (buildLedger ins)) (buildLedger ins)
      = { pos := (p : Int), inGenerated := false } := by
  obtain ⟨hwf, _⟩ := buildLedger_wf_of_increasing ins hinc
  exact roundtrip_go p (buildLedger ins) 0 none hwf (fun c h => nomatch h)

theorem claim_C1_roundtrip_witness :
    ([(2, "ab"), (5, "xyz")] : List (Nat × String)).Chain'
        (fun a b => a.1 < b.1)
      ∧ (∀ c ∈ buildLedger [(2, "ab"), (5, "xyz")],
          ¬ insideSpan c (toVirtualPos 3 (buildLedger [(2, "ab"), (5, "xyz")])))
      ∧ toOriginalPos (toVirtualPos 3 (buildLedger [(2, "ab"), (5, "xyz")]))
            (buildLedger [(2, "ab"), (5, "xyz")])
          = { pos := (3 : Int), inGenerated := false } :=
  ⟨by norm_num [List.chain'_cons], by decide,
    claim_C1_roundtrip [(2, "ab"), (5, "xyz")] 3
      (by norm_num [List.chain'_cons]) (by decide)⟩

/-- C2: After every sequence of insert calls made at pairwise-distinct
positions, the ledger's records are strictly ordered by `originalPos`
ascending (hence duplicate-free); the `total` of the record at index `i`
is the sum of `length` over the records at indices `≤ i`; the
`generatedPos` of the record at index `0` is its `originalPos` plus `0`,
and at index `i + 1` its `originalPos` plus the `total` of the record at
index `i`. -/
theorem claim_C2_ledger_invariants (ins : List (Nat × String))
    (hdist : ins.Pairwise (fun a b => a.1 ≠ b.1)) :
    (buildLedger ins).Pairwise (fun a b => a.originalPos < b.originalPos)
      ∧ (∀ (i : Nat) (h : i < (buildLedger ins).length),
          ((buildLedger ins).get ⟨i, h⟩).total
            = sumLen ((buildLedger ins).take (i + 1)))
      ∧ (∀ (h : 0 < (buildLedger ins).length),
          ((buildLedger ins).get ⟨0, h⟩).generatedPos
            = ((buildLedger ins).get ⟨0, h⟩).originalPos + 0)
      ∧ (∀ (i : Nat) (h : i + 1 < (buildLedger ins).length),
          ((buildLedger ins).get ⟨i + 1, h⟩).generatedPos
            = ((buildLedger ins).get ⟨i + 1, h⟩).originalPos
              + ((buildLedger ins).get ⟨i, Nat.lt_of_succ_lt h⟩).total) := by
  obtain ⟨hwf, hs⟩ := buildLedger_wf ins hdist
  haveI : IsTrans AddedCode (fun a b => a.originalPos < b.originalPos) :=
    ⟨fun a b c h1 h2 => Nat.lt_trans h1 h2⟩
  refine ⟨List.chain'_iff_pairwise.mp hs, ?_, ?_, ?_⟩
  · intro i h
    have := ledgerWF_total_get (buildLedger ins) 0 hwf i h
    omega
  · exact (ledgerWF_gen_get (buildLedger ins) 0 hwf).1
  · exact (ledgerWF_gen_get (buildLedger ins) 0 hwf).2

theorem claim_C2_ledger_invariants_witness :
    ([(5, "ab"), (2, "c"), (9, "xyz")] : List (Nat × String)).Pairwise
        (fun a b => a.1 ≠ b.1)
      ∧ ((buildLedger [(5, "ab"), (2, "c"), (9, "xyz")]).Pairwise
            (fun a b => a.originalPos < b.originalPos)
          ∧ (∀ (i : Nat)
              (h : i < (buildLedger [(5, "ab"), (2, "c"), (9, "xyz")]).length),
              ((buildLedger [(5, "ab"), (2, "c"), (9, "xyz")]).get
                  ⟨i, h⟩).total
                = sumLen ((buildLedger
                    [(5, "ab"), (2, "c"), (9, "xyz")]).take (i + 1)))
          ∧ (∀ (h : 0 < (buildLedger [(5, "ab"), (2, "c"), (9, "xyz")]).length),
              ((buildLedger [(5, "ab"), (2, "c"), (9, "xyz")]).get
                  ⟨0, h⟩).generatedPos
                = ((buildLedger [(5, "ab"), (2, "c"), (9, "xyz")]).get
                    ⟨0, h⟩).originalPos + 0)
          ∧ (∀ (i : Nat)
              (h : i + 1
                < (buildLedger [(5, "ab"), (2, "c"), (9, "xyz")]).length),
              ((buildLedger [(5, "ab"), (2, "c"), (9, "xyz")]).get
                  ⟨i + 1, h⟩).generatedPos
                = ((buildLedger [(5, "ab"), (2, "c"), (9, "xyz")]).get
                    ⟨i + 1, h⟩).originalPos
                  + ((buildLedger [(5, "ab"), (2, "c"), (9, "xyz")]).get
                      ⟨i, Nat.lt_of_succ_lt h⟩).total)) :=
  ⟨by decide,
    claim_C2_ledger_invariants [(5, "ab"), (2, "c"), (9, "xyz")] (by decide)⟩

/-- C3: For every ledger built from pairwise-distinct insert positions
and every generated position strictly inside the span of a record,
`toOriginalPos` returns that record's `originalPos` with
`inGenerated = true`; for every generated position inside no span it
returns the position minus the summed lengths of the records whose
`generatedPos` is `≤` the query, with `inGenerated = false`. -/
theorem claim_C3_toOriginalPos (ins : List (Nat × String)) (g : Nat)
    (hdist : ins.Pairwise (fun a b => a.1 ≠ b.1)) :
    (∀ c ∈ buildLedger ins, insideSpan c g →
        toOriginalPos g (buildLedger ins)
          = { pos := (c.originalPos : Int), inGenerated := true })
      ∧ ((∀ c ∈ buildLedger ins, ¬ insideSpan c g) →
          toOriginalPos g (buildLedger ins)
            = { pos := (g : Int)
                  - (sumLen ((buildLedger ins).filter
                      (fun c => decide (c.generatedPos ≤ g))) : Int),
                inGenerated := false }) := by
  obtain ⟨hwf, hs⟩ := buildLedger_wf ins hdist
  have hch := wf_spanChain (buildLedger ins) 0 hwf hs
  constructor
  · intro c hc hin
    exact toOriginalPosGo_inside g (buildLedger ins) 0 none c hch hc hin
  · intro hnin
    have hgo := toOriginalPosGo_outside g (buildLedger ins) 0 none hch hnin
      (fun c h => nomatch h)
    show toOriginalPosGo g 0 none (buildLedger ins) = _
    rw [hgo]
    simp

theorem claim_C3_toOriginalPos_witness :
    ([(2, "abc")] : List (Nat × String)).Pairwise (fun a b => a.1 ≠ b.1)
      ∧ ((∀ c ∈ buildLedger [(2, "abc")], insideSpan c 4 →
            toOriginalPos 4 (buildLedger [(2, "abc")])
              = { pos := (c.originalPos : Int), inGenerated := true })
          ∧ ((∀ c ∈ buildLedger [(2, "abc")], ¬ insideSpan c 4) →
              toOriginalPos 4 (buildLedger [(2, "abc")])
                = { pos := (4 : Int)
                      - (sumLen ((buildLedger [(2, "abc")]).filter
                          (fun c => decide (c.generatedPos ≤ 4))) : Int),
                    inGenerated := false })) :=
  ⟨by decide, claim_C3_toOriginalPos [(2, "abc")] 4 (by decide)⟩

/-- C5 counterexample: calling insert a second time with a position
identical to one already recorded does not fail; it silently produces a
record sequence with a duplicate `originalPos` (here two records at
original position 5). -/
theorem claim_C5_counterexample :
    ((insertCode (insertCode [] 5 "ab") 5 "cd").map
        (fun c => c.originalPos) = [5, 5])
      ∧ ¬ ((insertCode (insertCode [] 5 "ab") 5 "cd").map
          (fun c => c.originalPos)).Pairwise (fun a b => a ≠ b) := by
  decide

/-- C5 amended: `insertCode` has no duplicate-position check; a second
insert at an already-recorded `originalPos` is silently accepted, and
the resulting record sequence holds at least two records with that
`originalPos` (callers must guarantee distinct positions themselves). -/
theorem claim_C5_insert_duplicate_silent (l : List AddedCode) (pos : Nat)
    (s : String) (h : pos ∈ l.map (·.originalPos)) :
    2 ≤ ((insertCode l pos s).map (·.originalPos)).count pos := by
  rw [insertCode_eq_insertAux, insertAux_count_orig]
  have := List.count_pos_iff.mpr h
  omega

theorem claim_C5_insert_duplicate_silent_witness :
    (5 ∈ (insertCode [] 5 "ab").map (fun c => c.originalPos))
      ∧ 2 ≤ (((insertCode (insertCode [] 5 "ab") 5 "cd").map
          (fun c => c.originalPos)).count 5) :=
  ⟨by decide,
    claim_C5_insert_duplicate_silent (insertCode [] 5 "ab") 5 "cd" (by decide)⟩

/-! ### Claim theorems for the file-kind augmentor -/

/-- C4 counterexample: for a route file whose `load` export is an
untyped single-parameter function (here with a body at offset 20 and no
return-type annotation on the node), the route strategy records exactly
one insertion for `load`, not the two the claim states: `load` gets no
before-body return-type insertion. -/
theorem claim_C4_counterexample :
    (routeInsertCalls "+page.ts"
          [("load", .fn false ⟨[10], false, some 20, false, 0⟩)] id).length
        = 1
      ∧ ¬ ((routeInsertCalls "+page.ts"
            [("load", .fn false ⟨[10], false, some 20, false, 0⟩)] id).length
          = 2) := by
  decide

/-- C4 amended: for a route file whose `load` export is an untyped
single-parameter function, the augmentor makes exactly one insertion
for `load` — the type annotation immediately after the parameter (there
is no before-body insertion for `load`) — and makes no insertion for
`load` when the export already carries a type
(`hasTypeDefinition`). -/
theorem claim_C4_load_single_insertion (basename : String)
    (surround : String → String) (node : FunctionNode)
    (hparams : node.paramEnds.length = 1) :
    routeInsertCalls basename [("load", .fn false node)] surround
        = [(node.paramEnds.headD 0, surround (loadEventTypeString basename))]
      ∧ routeInsertCalls basename [("load", .fn true node)] surround = [] := by
  obtain ⟨e, he⟩ := List.length_eq_one.mp hparams
  constructor
  · simp [routeInsertCalls, loadCalls, actionsCalls, addTypeToVariableCalls,
      addTypeToFunctionCalls, lookupExport, he]
  · simp [routeInsertCalls, loadCalls, actionsCalls, addTypeToVariableCalls,
      addTypeToFunctionCalls, lookupExport]

theorem claim_C4_load_single_insertion_witness :
    (([10] : List Nat).length = 1)
      ∧ (routeInsertCalls "+page.ts"
            [("load", .fn false ⟨[10], false, some 20, false, 0⟩)] id
          = [(10, id (loadEventTypeString "+page.ts"))]
        ∧ routeInsertCalls "+page.ts"
            [("load", .fn true ⟨[10], false, some 20, false, 0⟩)] id = []) :=
  ⟨by decide,
    claim_C4_load_single_insertion "+page.ts" id
      ⟨[10], false, some 20, false, 0⟩ (by decide)⟩

/-- C6: the four augmentation strategies are consulted in the fixed
order route, server hooks, client hooks, params, and the first match is
the only one applied: when the route pattern matches, the result is the
route strategy's (for every hooks/params configuration — in particular
for one whose hooks suffix also matches the path); when only later
patterns match, the result is that of the earliest matching
strategy. -/
theorem claim_C6_strategy_priority (fileName : String)
    (settings : KitFilesSettings) (source : SourceFileModel)
    (surround : String → String) :
    (isKitRouteFile (pathBasename fileName) = true →
        ∀ settings' : KitFilesSettings,
          upsertKitFile fileName settings' (some source) surround
            = assembleResult (upserKitRouteFile (pathBasename fileName)
                (some source) surround))
      ∧ (isKitRouteFile (pathBasename fileName) = false →
          isServerHooksFile fileName (pathBasename fileName)
              settings.serverHooksPath = true →
          upsertKitFile fileName settings (some source) surround
            = assembleResult (upserKitServerHooksFile fileName
                (pathBasename fileName) settings.serverHooksPath
                (some source) surround))
      ∧ (isKitRouteFile (pathBasename fileName) = false →
          isServerHooksFile fileName (pathBasename fileName)
              settings.serverHooksPath = false →
          isClientHooksFile fileName (pathBasename fileName)
              settings.clientHooksPath = true →
          upsertKitFile fileName settings (some source) surround
            = assembleResult (upserKitClientHooksFile fileName
                (pathBasename fileName) settings.clientHooksPath
                (some source) surround))
      ∧ (isKitRouteFile (pathBasename fileName) = false →
          isServerHooksFile fileName (pathBasename fileName)
              settings.serverHooksPath = false →
          isClientHooksFile fileName (pathBasename fileName)
              settings.clientHooksPath = false →
          upsertKitFile fileName settings (some source) surround
            = assembleResult (upserKitParamsFile fileName
                (pathBasename fileName) settings.paramsPath
                (some source) surround)) := by
  refine ⟨?_, ?_, ?_, ?_⟩
  · intro hroute settings'
    simp [upsertKitFile, upserKitRouteFile, hroute]
  · intro hroute hserver
    simp [upsertKitFile, upserKitRouteFile, upserKitServerHooksFile,
      hroute, hserver]
  · intro hroute hserver hclient
    simp [upsertKitFile, upserKitRouteFile, upserKitServerHooksFile,
      upserKitClientHooksFile, hroute, hserver, hclient]
  · intro hroute hserver hclient
    simp [upsertKitFile, upserKitRouteFile, upserKitServerHooksFile,
      upserKitClientHooksFile, hroute, hserver, hclient]

theorem claim_C6_strategy_priority_witness :
    isKitRouteFile (pathBasename "src/hooks.server/+page.ts") = true
      ∧ isServerHooksFile "src/hooks.server/+page.ts"
          (pathBasename "src/hooks.server/+page.ts") "hooks.server/+page"
          = true
      ∧ upsertKitFile "src/hooks.server/+page.ts"
            ⟨"hooks.server/+page", "hooks.client", "params"⟩
            (some ⟨[], "abc"⟩) id
          = assembleResult (upserKitRouteFile
              (pathBasename "src/hooks.server/+page.ts")
              (some ⟨[], "abc"⟩) id) :=
  ⟨by decide, by decide,
    (claim_C6_strategy_priority "src/hooks.server/+page.ts"
        ⟨"hooks.server/+page", "hooks.client", "params"⟩ ⟨[], "abc"⟩ id).1
      (by decide) ⟨"hooks.server/+page", "hooks.client", "params"⟩⟩

/-- C7: a file path matching none of the four special-file patterns
yields the non-error no-match result (`none`, modelling `undefined`)
with no ledger at all, for any supplied source; and whenever the parsed
source cannot be supplied (`getSource` yields nothing), every strategy
returns the non-error no-transformation result, again `none`. -/
theorem claim_C7_no_match_no_failure (fileName : String)
    (settings : KitFilesSettings) (getSource : Option SourceFileModel)
    (surround : String → String) :
    (isKitFile fileName settings = false →
        upsertKitFile fileName settings getSource surround = none)
      ∧ upsertKitFile fileName settings none surround = none := by
  constructor
  · intro h
    simp only [isKitFile, Bool.or_eq_false_iff] at h
    obtain ⟨⟨⟨hr, hs⟩, hc⟩, hp⟩ := h
    simp [upsertKitFile, upserKitRouteFile, upserKitServerHooksFile,
      upserKitClientHooksFile, upserKitParamsFile, assembleResult,
      hr, hs, hc, hp]
  · simp [upsertKitFile, upserKitRouteFile, upserKitServerHooksFile,
      upserKitClientHooksFile, upserKitParamsFile, assembleResult]

/-! ### Supporting lemmas for the transpiler claims -/

theorem addDeclaredName_removals (st : ReplaceState) (v : BindingName) :
    (addDeclaredName st v).removals = st.removals := by
  cases v <;> rfl

theorem addDeclaredName_exported (st : ReplaceState) (v : BindingName) :
    (addDeclaredName st v).exportedNames = st.exportedNames := by
  cases v <;> rfl

theorem mapSet_lookup_self (k : String) (v : Option String) :
    ∀ m : List (String × Option String),
      lookupVal (mapSet m k v) k = some v := by
  intro m
  induction m with
  | nil => simp [mapSet, lookupVal]
  | cons p rest ih =>
    by_cases hp : (p.1 == k) = true
    · have hp1 : p.1 = k := by simpa using hp
      have hc : mapSet (p :: rest) k v
          = (k, v) :: rest.map (fun p => if p.1 == k then (k, v) else p) := by
        simp [mapSet, List.any_cons, hp, hp1]
      rw [hc]
      simp [lookupVal, List.find?]
    · have hp1 : ¬ p.1 = k := by simpa using hp
      by_cases hr : rest.any (fun p => p.1 == k) = true
      · have hc : mapSet (p :: rest) k v
            = p :: rest.map (fun p => if p.1 == k then (k, v) else p) := by
          simp [mapSet, List.any_cons, hp, hp1, hr]
        rw [hc]
        have ih' := ih
        rw [show mapSet rest k v
            = rest.map (fun p => if p.1 == k then (k, v) else p) from by
          simp [mapSet, hr]] at ih'
        simpa [lookupVal, List.find?, hp] using ih'
      · have hc : mapSet (p :: rest) k v = p :: (rest ++ [(k, v)]) := by
          simp [mapSet, List.any_cons, hp, hr]
        rw [hc]
        have ih' := ih
        rw [show mapSet rest k v = rest ++ [(k, v)] from by
          simp [mapSet, hr]] at ih'
        simpa [lookupVal, List.find?, hp] using ih'

theorem mapSet_lookup_ne (k q : String) (v : Option String) (hne : q ≠ k) :
    ∀ m : List (String × Option String),
      lookupVal (mapSet m k v) q = lookupVal m q := by
  have hkq : (k == q) = false := by
    simp
    exact fun h => hne h.symm
  intro m
  induction m with
  | nil => simp [mapSet, lookupVal, List.find?, hkq]
  | cons p rest ih =>
    by_cases hp : (p.1 == k) = true
    · have hp1 : p.1 = k := by simpa using hp
      have hpq : (p.1 == q) = false := by rw [hp1]; exact hkq
      have hc : mapSet (p :: rest) k v
          = (k, v) :: rest.map (fun p => if p.1 == k then (k, v) else p) := by
        simp [mapSet, List.any_cons, hp, hp1]
      rw [hc]
      by_cases hr : rest.any (fun p => p.1 == k) = true
      · have ih' := ih
        rw [show mapSet rest k v
            = rest.map (fun p => if p.1 == k then (k, v) else p) from by
          simp [mapSet, hr]] at ih'
        simp only [lookupVal, List.find?, hkq, hpq] at ih' ⊢
        exact ih'
      · -- the key occurs at the head, `rest` holds no copy; the map
        -- leaves `rest` unchanged on lookups of `q`
        have hmap : ∀ l : List (String × Option String),
            l.any (fun p => p.1 == k) = false →
            l.map (fun p => if p.1 == k then (k, v) else p) = l := by
          intro l
          induction l with
          | nil => intro _; rfl
          | cons x xs ihl =>
            intro hx
            simp only [List.any_cons, Bool.or_eq_false_iff] at hx
            have hx1 : ¬ x.1 = k := by simpa using hx.1
            rw [List.map_cons, ihl hx.2]
            simp [hx1]
        rw [Bool.not_eq_true] at hr
        rw [hmap rest hr]
        simp [lookupVal, List.find?, hkq, hpq]
    · have hp1 : ¬ p.1 = k := by simpa using hp
      by_cases hr : rest.any (fun p => p.1 == k) = true
      · have hc : mapSet (p :: rest) k v
            = p :: rest.map (fun p => if p.1 == k then (k, v) else p) := by
          simp [mapSet, List.any_cons, hp, hp1, hr]
        rw [hc]
        have ih' := ih
        rw [show mapSet rest k v
            = rest.map (fun p => if p.1 == k then (k, v) else p) from by
          simp [mapSet, hr]] at ih'
        by_cases hpq : (p.1 == q) = true
        · simp [lookupVal, List.find?, hpq]
        · simp only [lookupVal, List.find?, hpq] at ih' ⊢
          exact ih'
      · have hc : mapSet (p :: rest) k v = p :: (rest ++ [(k, v)]) := by
          simp [mapSet, List.any_cons, hp, hr]
        rw [hc]
        have ih' := ih
        rw [show mapSet rest k v = rest ++ [(k, v)] from by
          simp [mapSet, hr]] at ih'
        by_cases hpq : (p.1 == q) = true
        · simp [lookupVal, List.find?, hpq]
        · simp only [lookupVal, List.find?, hpq] at ih' ⊢
          exact ih'

theorem lookupVal_mem (m : List (String × Option String)) (k : String)
    (v : Option String) (h : lookupVal m k = some v) : (k, v) ∈ m := by
  unfold lookupVal at h
  cases hf : m.find? (fun p => p.1 == k) with
  | none => rw [hf] at h; cases h
  | some pr =>
    rw [hf] at h
    have hmem := List.mem_of_find?_eq_some hf
    have hpred := List.find?_some hf
    have hk : pr.1 = k := by simpa using hpred
    have hv : pr.2 = v := by simpa using h
    have : pr = (k, v) := by
      cases pr
      simp at hk hv
      simp [hk, hv]
    rwa [this] at hmem

theorem findSubstrAux_spec (needle : List Char) :
    ∀ (hay : List Char) (i j : Nat),
      findSubstrAux needle hay i = (j : Int) →
      i ≤ j ∧ needle.isPrefixOf (hay.drop (j - i)) = true := by
  intro hay
  induction hay with
  | nil =>
    intro i j h
    unfold findSubstrAux at h
    by_cases hn : needle.isEmpty
    · rw [if_pos hn] at h
      have hij : i = j := by exact_mod_cast h
      subst hij
      refine ⟨Nat.le_refl i, ?_⟩
      have : needle = [] := by simpa using hn
      simp [this, List.isPrefixOf]
    · rw [if_neg hn] at h
      exfalso
      omega
  | cons c t ih =>
    intro i j h
    unfold findSubstrAux at h
    by_cases hp : needle.isPrefixOf (c :: t) = true
    · rw [if_pos hp] at h
      have hij : i = j := by exact_mod_cast h
      subst hij
      exact ⟨Nat.le_refl i, by simpa using hp⟩
    · rw [if_neg hp] at h
      obtain ⟨hle, hpre⟩ := ih (i + 1) j h
      refine ⟨by omega, ?_⟩
      rw [show j - i = (j - (i + 1)) + 1 by omega, List.drop_succ_cons]
      exact hpre

theorem findSubstrFrom_spec (hay needle : List Char) (start j : Nat)
    (h : findSubstrFrom hay needle start = (j : Int)) :
    needle.isPrefixOf (hay.drop j) = true := by
  obtain ⟨hle, hpre⟩ := findSubstrAux_spec needle (hay.drop start) start j h
  rw [List.drop_drop] at hpre
  rwa [show start + (j - start) = j from by omega] at hpre

theorem processVarDecls_ok (hasExport : Bool) :
    ∀ (decls : List BindingName) (st : ReplaceState),
      (hasExport = true → ∀ v ∈ decls, bindingOk v = true) →
      ∃ st', processVarDecls hasExport st decls = Except.ok st'
        ∧ st'.removals = st.removals
        ∧ (∀ a : String,
            (hasExport = true → ∀ v ∈ decls, ¬ v = BindingName.ident a) →
            lookupVal st'.exportedNames a = lookupVal st.exportedNames a) := by
  intro decls
  induction decls with
  | nil => intro st _; exact ⟨st, rfl, rfl, fun a _ => rfl⟩
  | cons v rest ih =>
    intro st hok
    cases hexp : hasExport with
    | false =>
      subst hexp
      obtain ⟨st', hrun, hrem, hlook⟩ :=
        ih (addDeclaredName st v) (fun h => nomatch h)
      refine ⟨st', hrun, ?_, ?_⟩
      · rw [hrem, addDeclaredName_removals]
      · intro a _
        rw [hlook a (fun h => nomatch h), addDeclaredName_exported]
    | true =>
      subst hexp
      have hv : bindingOk v = true := hok rfl v (List.mem_cons_self _ _)
      cases v with
      | pattern => simp [bindingOk] at hv
      | ident t =>
        obtain ⟨st', hrun, hrem, hlook⟩ :=
          ih (addDeclaredName
              { st with exportedNames := mapSet st.exportedNames t none }
              (.ident t))
            (fun _ w hw => hok rfl w (List.mem_cons_of_mem _ hw))
        refine ⟨st', hrun, ?_, ?_⟩
        · rw [hrem, addDeclaredName_removals]
        · intro a ha
          have hta : ¬ t = a := by
            have hne := ha rfl (.ident t) (List.mem_cons_self _ _)
            intro hcontra
            exact hne (by rw [hcontra])
          rw [hlook a (fun h w hw => ha rfl w (List.mem_cons_of_mem _ hw)),
            addDeclaredName_exported]
          exact mapSet_lookup_ne t a none (fun h => hta h.symm)
            st.exportedNames

theorem processExportSpecifiers_ok (original : String)
    (astOffset edPos : Nat) :
    ∀ (elems : List ExportSpecifier) (st : ReplaceState),
      (∀ ne ∈ elems, exportSpecifierOk ne = true) →
      ∃ st', processExportSpecifiers original astOffset edPos st elems
          = Except.ok st'
        ∧ (∀ r ∈ st.removals, r ∈ st'.removals)
        ∧ (∀ a : String,
            (∀ ne ∈ elems, ¬ exportSpecSource ne = BindingName.ident a) →
            lookupVal st'.exportedNames a = lookupVal st.exportedNames a) := by
  intro elems
  induction elems with
  | nil => intro st _; exact ⟨st, rfl, fun r hr => hr, fun a _ => rfl⟩
  | cons ne rest ih =>
    intro st hok
    have hne := hok ne (List.mem_cons_self _ _)
    obtain ⟨pn, nm⟩ := ne
    cases pn with
    | none =>
      cases nm with
      | pattern => simp [exportSpecifierOk, bindingOk] at hne
      | ident t =>
        obtain ⟨st', hrun, hrem, hlook⟩ := ih
          { exportedNames := mapSet st.exportedNames t none
            declaredNames := st.declaredNames
            removals := st.removals
              ++ [removeExportCall original astOffset edPos] }
          (fun w hw => hok w (List.mem_cons_of_mem _ hw))
        refine ⟨st', hrun, ?_, ?_⟩
        · intro r hr
          exact hrem r (List.mem_append_left _ hr)
        · intro a ha
          have hta : ¬ t = a := by
            have h0 := ha ⟨none, .ident t⟩ (List.mem_cons_self _ _)
            intro hcontra
            exact h0 (by simp [exportSpecSource, hcontra])
          rw [hlook a (fun w hw => ha w (List.mem_cons_of_mem _ hw))]
          exact mapSet_lookup_ne t a none (fun h => hta h.symm)
            st.exportedNames
    | some pnn =>
      cases pnn with
      | pattern => simp [exportSpecifierOk, bindingOk] at hne
      | ident t =>
        cases nm with
        | pattern => simp [exportSpecifierOk, bindingOk] at hne
        | ident u =>
          obtain ⟨st', hrun, hrem, hlook⟩ := ih
            { exportedNames := mapSet st.exportedNames t (some u)
              declaredNames := st.declaredNames
              removals := st.removals
                ++ [removeExportCall original astOffset edPos] }
            (fun w hw => hok w (List.mem_cons_of_mem _ hw))
          refine ⟨st', hrun, ?_, ?_⟩
          · intro r hr
            exact hrem r (List.mem_append_left _ hr)
          · intro a ha
            have hta : ¬ t = a := by
              have h0 := ha ⟨some (.ident t), .ident u⟩
                (List.mem_cons_self _ _)
              intro hcontra
              exact h0 (by simp [exportSpecSource, hcontra])
            rw [hlook a (fun w hw => ha w (List.mem_cons_of_mem _ hw))]
            exact mapSet_lookup_ne t a (some u) (fun h => hta h.symm)
              st.exportedNames

theorem processStatement_ok (original : String) (astOffset : Nat)
    (s : TsStatement) (st : ReplaceState)
    (hok : statementExportsOk s = true) :
    ∃ st', processStatement original astOffset st s = Except.ok st'
      ∧ (∀ r ∈ st.removals, r ∈ st'.removals)
      ∧ (∀ a : String, exportsName s a = false →
          lookupVal st'.exportedNames a = lookupVal st.exportedNames a) := by
  cases s with
  | varStmt exportMod decls =>
    cases exportMod with
    | none =>
      obtain ⟨st', hrun, hrem, hlook⟩ :=
        processVarDecls_ok false decls st (fun h => nomatch h)
      exact ⟨st', hrun, by rw [hrem]; exact fun r hr => hr,
        fun a _ => hlook a (fun h => nomatch h)⟩
    | some me =>
      obtain ⟨mpos, mend⟩ := me
      have hall : ∀ v ∈ decls, bindingOk v = true := by
        simpa [statementExportsOk, List.all_eq_true] using hok
      obtain ⟨st', hrun, hrem, hlook⟩ := processVarDecls_ok true decls
        { st with removals := st.removals
            ++ [removeExportCall original astOffset mpos] }
        (fun _ => hall)
      refine ⟨st', hrun, ?_, ?_⟩
      · intro r hr
        rw [hrem]
        exact List.mem_append_left _ hr
      · intro a ha
        simp only [exportsName, List.any_eq_false] at ha
        rw [hlook a (fun _ w hw => by simpa using ha w hw)]
  | funcDecl exportMod name =>
    cases exportMod with
    | none =>
      refine ⟨addDeclaredName st name, rfl, ?_, ?_⟩
      · rw [addDeclaredName_removals]; exact fun r hr => hr
      · intro a _; rw [addDeclaredName_exported]
    | some me =>
      obtain ⟨mpos, mend⟩ := me
      cases name with
      | pattern => simp [statementExportsOk, bindingOk] at hok
      | ident t =>
        refine ⟨addDeclaredName
          { exportedNames := mapSet st.exportedNames t none
            declaredNames := st.declaredNames
            removals := st.removals
              ++ [removeExportCall original astOffset mpos] }
          (.ident t), rfl, ?_, ?_⟩
        · intro r hr
          rw [addDeclaredName_removals]
          exact List.mem_append_left _ hr
        · intro a ha
          have hta : ¬ t = a := by
            simp [exportsName] at ha
            intro hcontra
            exact ha (by rw [hcontra])
          rw [addDeclaredName_exported]
          exact mapSet_lookup_ne t a none (fun h => hta h.symm)
            st.exportedNames
  | exportDecl pos endPos elements =>
    have hall : ∀ ne ∈ elements, exportSpecifierOk ne = true := by
      simpa [statementExportsOk, List.all_eq_true] using hok
    obtain ⟨st', hrun, hrem, hlook⟩ :=
      processExportSpecifiers_ok original astOffset pos elements st hall
    refine ⟨st', hrun, hrem, ?_⟩
    intro a ha
    simp only [exportsName, List.any_eq_false] at ha
    exact hlook a (fun w hw => by simpa using ha w hw)
  | labeledStmt label pos body => exact ⟨st, rfl, fun r hr => hr, fun a _ => rfl⟩
  | otherStmt => exact ⟨st, rfl, fun r hr => hr, fun a _ => rfl⟩

theorem processVarDecls_error :
    ∀ (decls : List BindingName) (st : ReplaceState),
      (∃ v ∈ decls, bindingOk v = false) →
      ∃ e, processVarDecls true st decls = Except.error e := by
  intro decls
  induction decls with
  | nil =>
    intro st h
    obtain ⟨v, hv, _⟩ := h
    cases hv
  | cons v rest ih =>
    intro st h
    cases hv : bindingOk v with
    | false =>
      cases v with
      | ident t => simp [bindingOk] at hv
      | pattern => exact ⟨"export source kind not supported", rfl⟩
    | true =>
      cases v with
      | pattern => simp [bindingOk] at hv
      | ident t =>
        have hrest : ∃ w ∈ rest, bindingOk w = false := by
          obtain ⟨w, hw, hbw⟩ := h
          rcases List.mem_cons.mp hw with hw | hw
          · subst hw; rw [hv] at hbw; cases hbw
          · exact ⟨w, hw, hbw⟩
        obtain ⟨e, he⟩ := ih (addDeclaredName
          { st with exportedNames := mapSet st.exportedNames t none }
          (.ident t)) hrest
        exact ⟨e, he⟩

theorem processExportSpecifiers_error (original : String)
    (astOffset edPos : Nat) :
    ∀ (elems : List ExportSpecifier) (st : ReplaceState),
      (∃ ne ∈ elems, exportSpecifierOk ne = false) →
      ∃ e, processExportSpecifiers original astOffset edPos st elems
        = Except.error e := by
  intro elems
  induction elems with
  | nil =>
    intro st h
    obtain ⟨ne, hne, _⟩ := h
    cases hne
  | cons ne rest ih =>
    intro st h
    obtain ⟨pn, nm⟩ := ne
    cases pn with
    | none =>
      cases nm with
      | pattern => exact ⟨"export source kind not supported", rfl⟩
      | ident t =>
        have hrest : ∃ w ∈ rest, exportSpecifierOk w = false := by
          obtain ⟨w, hw, hbw⟩ := h
          rcases List.mem_cons.mp hw with hw | hw
          · subst hw; simp [exportSpecifierOk, bindingOk] at hbw
          · exact ⟨w, hw, hbw⟩
        obtain ⟨e, he⟩ := ih
          { exportedNames := mapSet st.exportedNames t none
            declaredNames := st.declaredNames
            removals := st.removals
              ++ [removeExportCall original astOffset edPos] } hrest
        exact ⟨e, he⟩
    | some pnn =>
      cases pnn with
      | pattern => exact ⟨"export source kind not supported", rfl⟩
      | ident t =>
        cases nm with
        | pattern => exact ⟨"export target kind not supported", rfl⟩
        | ident u =>
          have hrest : ∃ w ∈ rest, exportSpecifierOk w = false := by
            obtain ⟨w, hw, hbw⟩ := h
            rcases List.mem_cons.mp hw with hw | hw
            · subst hw; simp [exportSpecifierOk, bindingOk] at hbw
            · exact ⟨w, hw, hbw⟩
          obtain ⟨e, he⟩ := ih
            { exportedNames := mapSet st.exportedNames t (some u)
              declaredNames := st.declaredNames
              removals := st.removals
                ++ [removeExportCall original astOffset edPos] } hrest
          exact ⟨e, he⟩

theorem processStatement_error (original : String) (astOffset : Nat)
    (s : TsStatement) (st : ReplaceState)
    (hbad : statementExportsOk s = false) :
    ∃ e, processStatement original astOffset st s = Except.error e := by
  cases s with
  | varStmt exportMod decls =>
    cases exportMod with
    | none => simp [statementExportsOk] at hbad
    | some me =>
      obtain ⟨mpos, mend⟩ := me
      have hex : ∃ v ∈ decls, bindingOk v = false := by
        have := hbad
        simp only [statementExportsOk, List.all_eq_false] at this
        obtain ⟨v, hv, hbv⟩ := this
        exact ⟨v, hv, by simpa using hbv⟩
      exact processVarDecls_error decls _ hex
  | funcDecl exportMod name =>
    cases exportMod with
    | none => simp [statementExportsOk] at hbad
    | some me =>
      obtain ⟨mpos, mend⟩ := me
      cases name with
      | ident t => simp [statementExportsOk, bindingOk] at hbad
      | pattern => exact ⟨"export source kind not supported", rfl⟩
  | exportDecl pos endPos elements =>
    have hex : ∃ ne ∈ elements, exportSpecifierOk ne = false := by
      have := hbad
      simp only [statementExportsOk, List.all_eq_false] at this
      obtain ⟨ne, hne, hbne⟩ := this
      exact ⟨ne, hne, by simpa using hbne⟩
    exact processExportSpecifiers_error original astOffset pos elements st hex
  | labeledStmt label pos body => simp [statementExportsOk] at hbad
  | otherStmt => simp [statementExportsOk] at hbad

theorem replaceExportsGo_ok (original : String) (astOffset : Nat) :
    ∀ (l : List TsStatement) (st : ReplaceState),
      (∀ s ∈ l, statementExportsOk s = true) →
      ∃ st', replaceExportsGo original astOffset st l = Except.ok st'
        ∧ (∀ r ∈ st.removals, r ∈ st'.removals)
        ∧ (∀ a : String, (∀ s ∈ l, exportsName s a = false) →
            lookupVal st'.exportedNames a = lookupVal st.exportedNames a) := by
  intro l
  induction l with
  | nil => intro st _; exact ⟨st, rfl, fun r hr => hr, fun a _ => rfl⟩
  | cons s rest ih =>
    intro st hok
    obtain ⟨st1, hrun1, hrem1, hlook1⟩ :=
      processStatement_ok original astOffset s st
        (hok s (List.mem_cons_self _ _))
    obtain ⟨st', hrun, hrem, hlook⟩ :=
      ih st1 (fun w hw => hok w (List.mem_cons_of_mem _ hw))
    refine ⟨st', ?_, ?_, ?_⟩
    · simp only [replaceExportsGo]
      rw [hrun1]
      exact hrun
    · intro r hr
      exact hrem r (hrem1 r hr)
    · intro a ha
      rw [hlook a (fun w hw => ha w (List.mem_cons_of_mem _ hw)),
        hlook1 a (ha s (List.mem_cons_self _ _))]

theorem replaceExportsGo_error (original : String) (astOffset : Nat) :
    ∀ (l : List TsStatement) (st : ReplaceState),
      (∃ s ∈ l, statementExportsOk s = false) →
      ∃ e, replaceExportsGo original astOffset st l = Except.error e := by
  intro l
  induction l with
  | nil =>
    intro st h
    obtain ⟨s, hs, _⟩ := h
    cases hs
  | cons s rest ih =>
    intro st h
    cases hs : statementExportsOk s with
    | false =>
      obtain ⟨e, he⟩ := processStatement_error original astOffset s st hs
      refine ⟨e, ?_⟩
      simp only [replaceExportsGo]
      rw [he]
      rfl
    | true =>
      obtain ⟨st1, hrun1, _, _⟩ :=
        processStatement_ok original astOffset s st hs
      have hrest : ∃ w ∈ rest, statementExportsOk w = false := by
        obtain ⟨w, hw, hbw⟩ := h
        rcases List.mem_cons.mp hw with hw | hw
        · subst hw; rw [hs] at hbw; cases hbw
        · exact ⟨w, hw, hbw⟩
      obtain ⟨e, he⟩ := ih st1 hrest
      refine ⟨e, ?_⟩
      simp only [replaceExportsGo]
      rw [hrun1]
      exact he

theorem replaceExportsGo_append (original : String) (astOffset : Nat) :
    ∀ (l₁ l₂ : List TsStatement) (st : ReplaceState),
      replaceExportsGo original astOffset st (l₁ ++ l₂)
        = match replaceExportsGo original astOffset st l₁ with
          | Except.ok st' => replaceExportsGo original astOffset st' l₂
          | Except.error e => Except.error e := by
  intro l₁
  induction l₁ with
  | nil => intro l₂ st; rfl
  | cons s rest ih =>
    intro l₂ st
    show replaceExportsGo original astOffset st (s :: (rest ++ l₂)) = _
    simp only [replaceExportsGo]
    cases hps : processStatement original astOffset st s with
    | ok st1 => exact ih l₂ st1
    | error e => rfl

theorem processStatement_exportDecl_single (original : String)
    (astOffset p pe : Nat) (a b : String) (st : ReplaceState) :
    processStatement original astOffset st
        (.exportDecl p pe [⟨some (.ident a), .ident b⟩])
      = Except.ok
          { exportedNames := mapSet st.exportedNames a (some b)
            declaredNames := st.declaredNames
            removals := st.removals
              ++ [removeExportCall original astOffset p] } := rfl

/-! ### Reactive-variable declaration lemmas -/

theorem foldl_append_toList (f : TsStatement → Option (Nat × String)) :
    ∀ (l : List TsStatement) (acc : List (Nat × String)),
      l.foldl (fun acc s => acc ++ (f s).toList) acc
        = acc ++ l.filterMap f := by
  intro l
  induction l with
  | nil => intro acc; simp
  | cons s rest ih =>
    intro acc
    rw [List.foldl_cons, ih, List.filterMap_cons]
    cases f s <;> simp

theorem declareImplicit_eq_filterMap (declaredNames : List String)
    (statements : List TsStatement) (astOffset : Nat) :
    declareImplictReactiveVariables declaredNames statements astOffset
      = statements.filterMap (reactiveDeclOpt declaredNames astOffset) := by
  unfold declareImplictReactiveVariables
  rw [foldl_append_toList]
  simp

theorem declString_inj (x y : String)
    (h : ";let " ++ x ++ "; " = ";let " ++ y ++ "; ") : x = y := by
  have hd := congrArg String.data h
  simp only [String.data_append, List.append_assoc] at hd
  apply String.ext
  exact List.append_cancel_right (List.append_cancel_left hd)

theorem claim_C7_no_match_no_failure_witness :
    isKitFile "src/foo.ts" ⟨"hooks.server", "hooks.client", "params"⟩ = false
      ∧ upsertKitFile "src/foo.ts"
          ⟨"hooks.server", "hooks.client", "params"⟩ (some ⟨[], "abc"⟩) id
        = none :=
  ⟨by decide,
    (claim_C7_no_match_no_failure "src/foo.ts"
        ⟨"hooks.server", "hooks.client", "params"⟩ (some ⟨[], "abc"⟩) id).1
      (by decide)⟩

/-! ### Claim theorems for the transpiler -/

/-- C8: for a component script whose statements contain the top-level
export clause `export \x7b a as b \x7d` with identifier elements (and
otherwise well-shaped exports, with no later statement re-exporting the
source name `a`), `replaceExports` succeeds, records the removal of the
clause's `export` keyword text (the six characters located by `indexOf`
from the clause start — and wherever that search succeeds, the located
characters are exactly "export"), and the synthesized props object of
the return statement contains the entry `b: a` (property name `b`
bound to source identifier `a`). -/
theorem claim_C8_export_as (original : String) (astOffset p pe : Nat)
    (a b : String) (s₁ s₂ : List TsStatement)
    (h1 : ∀ s ∈ s₁, statementExportsOk s = true)
    (h2 : ∀ s ∈ s₂, statementExportsOk s = true)
    (hnl : ∀ s ∈ s₂, exportsName s a = false) :
    ∃ st, replaceExports original astOffset
        (s₁ ++ TsStatement.exportDecl p pe
            [⟨some (.ident a), .ident b⟩] :: s₂) = Except.ok st
      ∧ lookupVal st.exportedNames a = some (some b)
      ∧ (b ++ ": " ++ a) ∈ returnElements st.exportedNames
      ∧ removeExportCall original astOffset p ∈ st.removals
      ∧ (∀ j : Nat,
          findSubstrFrom original.data exportKeyword (p + astOffset)
              = (j : Int) →
          exportKeyword.isPrefixOf (original.data.drop j) = true) := by
  obtain ⟨st1, hrun1, hrem1, hlook1⟩ :=
    replaceExportsGo_ok original astOffset s₁ ⟨[], [], []⟩ h1
  have hed := processStatement_exportDecl_single original astOffset p pe a b st1
  obtain ⟨st, hrun2, hrem2, hlook2⟩ := replaceExportsGo_ok original astOffset s₂
    { exportedNames := mapSet st1.exportedNames a (some b)
      declaredNames := st1.declaredNames
      removals := st1.removals ++ [removeExportCall original astOffset p] } h2
  have hlk : lookupVal st.exportedNames a = some (some b) := by
    rw [hlook2 a hnl]
    exact mapSet_lookup_self a (some b) st1.exportedNames
  refine ⟨st, ?_, hlk, ?_, ?_, ?_⟩
  · unfold replaceExports
    rw [replaceExportsGo_append, hrun1]
    simp only [replaceExportsGo]
    rw [hed]
    exact hrun2
  · exact List.mem_map.mpr ⟨(a, some b), lookupVal_mem _ _ _ hlk, rfl⟩
  · exact hrem2 _ (List.mem_append_right _ (by simp))
  · intro j hj
    exact findSubstrFrom_spec original.data exportKeyword (p + astOffset) j hj

theorem claim_C8_export_as_witness :
    (∀ s ∈ ([] : List TsStatement), statementExportsOk s = true)
      ∧ (∀ s ∈ ([] : List TsStatement), exportsName s "a" = false)
      ∧ ∃ st, replaceExports "export stuff" 0
            ([] ++ TsStatement.exportDecl 0 17
                [⟨some (.ident "a"), .ident "b"⟩] :: []) = Except.ok st
          ∧ lookupVal st.exportedNames "a" = some (some "b")
          ∧ ("b" ++ ": " ++ "a") ∈ returnElements st.exportedNames
          ∧ removeExportCall "export stuff" 0 0 ∈ st.removals
          ∧ (∀ j : Nat,
              findSubstrFrom "export stuff".data exportKeyword (0 + 0)
                  = (j : Int) →
              exportKeyword.isPrefixOf ("export stuff".data.drop j) = true) :=
  ⟨by decide, by decide,
    claim_C8_export_as "export stuff" 0 0 17 "a" "b" [] []
      (by decide) (by decide) (by decide)⟩

/-- C9: for every component script containing the top-level reactive
labeled statement `$: x = ...` (bare-identifier left-hand side),
`declareImplictReactiveVariables` emits the forward declaration
`;let x; ` immediately after that statement's `pos` exactly when `x` is
not among the declared top-level names; when `x` is already declared,
no declaration for `x` is emitted anywhere. -/
theorem claim_C9_reactive_declaration (declaredNames : List String)
    (statements : List TsStatement) (astOffset p : Nat) (x : String)
    (hmem : TsStatement.labeledStmt "$" p (.assignIdent x) ∈ statements) :
    (x ∉ declaredNames →
        (p + astOffset + 1, ";let " ++ x ++ "; ")
          ∈ declareImplictReactiveVariables declaredNames statements
              astOffset)
      ∧ (x ∈ declaredNames → ∀ q : Nat,
          (q, ";let " ++ x ++ "; ")
            ∉ declareImplictReactiveVariables declaredNames statements
                astOffset) := by
  rw [declareImplicit_eq_filterMap]
  constructor
  · intro hx
    apply List.mem_filterMap.mpr
    refine ⟨_, hmem, ?_⟩
    have hfind : declaredNames.find? (fun n => x == n) = none := by
      rw [List.find?_eq_none]
      intro n hn hbeq
      exact hx (by rwa [show x = n from by simpa using hbeq])
    simp [reactiveDeclOpt, hfind]
  · intro hx q hqmem
    obtain ⟨s, _, hsome⟩ := List.mem_filterMap.mp hqmem
    cases s with
    | labeledStmt label ppos body =>
      cases body with
      | assignIdent y =>
        by_cases hl : (label == "$") = true
        · cases hfind : declaredNames.find? (fun n => y == n) with
          | some w => simp [reactiveDeclOpt, hl, hfind] at hsome
          | none =>
            simp only [reactiveDeclOpt, hl, hfind, if_true, if_pos,
              Option.some_inj] at hsome
            have hstr : ";let " ++ y ++ "; " = ";let " ++ x ++ "; " := by
              have := congrArg Prod.snd hsome
              simpa using this
            have hyx : y = x := declString_inj y x hstr
            subst hyx
            rw [List.find?_eq_none] at hfind
            exact absurd (by simp : (y == y) = true) (hfind y hx)
        · simp [reactiveDeclOpt, hl] at hsome
      | otherBody => simp [reactiveDeclOpt] at hsome
    | varStmt exportMod decls => simp [reactiveDeclOpt] at hsome
    | funcDecl exportMod name => simp [reactiveDeclOpt] at hsome
    | exportDecl pos endPos elements => simp [reactiveDeclOpt] at hsome
    | otherStmt => simp [reactiveDeclOpt] at hsome

theorem claim_C9_reactive_declaration_witness :
    (TsStatement.labeledStmt "$" 7 (.assignIdent "x")
        ∈ [TsStatement.labeledStmt "$" 7 (.assignIdent "x")])
      ∧ ("x" ∉ ([] : List String))
      ∧ (7 + 3 + 1, ";let " ++ "x" ++ "; ")
          ∈ declareImplictReactiveVariables []
              [TsStatement.labeledStmt "$" 7 (.assignIdent "x")] 3 :=
  ⟨by decide, by decide,
    (claim_C9_reactive_declaration []
        [TsStatement.labeledStmt "$" 7 (.assignIdent "x")] 3 7 "x"
        (by decide)).1 (by decide)⟩

/-- C10: a script statement whose export binding (source or rename
target) is not a plain identifier makes the script processing abort
with a thrown error (`Except.error`, which `svelte2tsx` never catches,
so the whole file's transformation produces no output); conversely,
when every export binding is a plain identifier the processing — in
particular its not-applicable and already-typed skips — never
aborts. -/
theorem claim_C10_structural_mismatch_aborts (original : String)
    (astOffset : Nat) (statements : List TsStatement) (slots : String) :
    ((∃ s ∈ statements, statementExportsOk s = false) →
        ∃ e, processScriptTagModel original astOffset statements slots
          = Except.error e)
      ∧ ((∀ s ∈ statements, statementExportsOk s = true) →
          ∃ out, processScriptTagModel original astOffset statements slots
            = Except.ok out) := by
  constructor
  · intro h
    obtain ⟨e, he⟩ :=
      replaceExportsGo_error original astOffset statements ⟨[], [], []⟩ h
    refine ⟨e, ?_⟩
    unfold processScriptTagModel replaceExports
    rw [he]
  · intro h
    obtain ⟨st, hrun, _, _⟩ :=
      replaceExportsGo_ok original astOffset statements ⟨[], [], []⟩ h
    refine ⟨(st,
      declareImplictReactiveVariables st.declaredNames statements astOffset,
      returnStringOf st.exportedNames slots), ?_⟩
    unfold processScriptTagModel replaceExports
    rw [hrun]

theorem claim_C10_structural_mismatch_aborts_witness :
    (∃ s ∈ [TsStatement.exportDecl 0 10 [⟨none, .pattern⟩]],
        statementExportsOk s = false)
      ∧ ∃ e, processScriptTagModel "export x" 0
          [TsStatement.exportDecl 0 10 [⟨none, .pattern⟩]] "slots"
        = Except.error e :=
  ⟨by decide,
    (claim_C10_structural_mismatch_aborts "export x" 0
        [TsStatement.exportDecl 0 10 [⟨none, .pattern⟩]] "slots").1
      (by decide)⟩

end SvelteKit
